import Mathlib

/-!
Verification of the module-dependency level computation in
`release/src/module_dependencies/main.py` of the repository.

The core of the program builds a directed graph from each module's
`dependents` list, assigns levels by a wave-by-wave traversal from the
roots, and prunes transitively redundant entries from the `dependents`
lists.  The definitions below are a shallow embedding of that code:
`initializeModuleDetails`, `calculateLevels` and
`removeModulesInIntermediatePaths` keep their Python names, and the
`DiGraph` structure models the networkx `DiGraph` operations the code
uses (`add_node` with a `level` attribute, `add_edge`, `successors`,
`in_degree`, `out_degree`, `all_simple_paths`), including insertion
order of nodes and adjacency, which Python dictionaries preserve.

Python's unbounded `while` loop is modelled with explicit fuel
(`(nodes G).length + 1`, enough for every acyclic graph); running out
of fuel (i.e. non-termination of the Python loop) and uncaught Python
exceptions (`ValueError` from `max` on an empty sequence, `KeyError`
from a missing `level` attribute) are modelled as `none`.
-/

namespace ModDeps

/-- A module record as created by `initializeModuleDetails`
(main.py lines 183-188): a JSON object with fields
`name`, `version`, `level`, `release`, `dependents`. -/
structure Mod where
  name : String
  version : String
  level : Nat
  release : Bool
  dependents : List String
deriving Repr, DecidableEq

/-- `initializeModuleDetails` (main.py lines 178-190).  The network call
`getVersion` is abstracted as an oracle argument; everything else is as in
the source: level `0`, release `True`, empty dependents list. -/
def initializeModuleDetails (getVersion : String → String)
    (moduleNameList : List String) : List Mod :=
  moduleNameList.map (fun n =>
    { name := n, version := getVersion n, level := 0,
      release := true, dependents := [] })

/-- First-match association lookup (models a Python dict read). -/
def getAssoc {α : Type} : List (String × α) → String → Option α
  | [], _ => none
  | (k', v) :: t, k => if k' = k then some v else getAssoc t k

/-- Association update (models a Python dict write: overwrite the binding
if the key is present, append it otherwise). -/
def setAssoc {α : Type} : List (String × α) → String → α → List (String × α)
  | [], k, v => [(k, v)]
  | (k', v') :: t, k, v =>
    if k' = k then (k, v) :: t else (k', v') :: setAssoc t k v

/-- The networkx `DiGraph` as used by the code: an adjacency map in node
insertion order (each node's successor list in edge insertion order), and
the `level` node attribute, stored for the nodes on which it was set. -/
structure DiGraph where
  adj : List (String × List String)
  levels : List (String × Nat)
deriving Repr, DecidableEq

/-- The node list of the graph, in insertion order (`for node in G`). -/
def DiGraph.nodes (G : DiGraph) : List String := G.adj.map Prod.fst

/-- Add a node with no attributes if absent (networkx does this implicitly
for the endpoints of `add_edge`). -/
def ensureNode (G : DiGraph) (n : String) : DiGraph :=
  if n ∈ G.nodes then G else { G with adj := G.adj ++ [(n, [])] }

/-- `G.add_node(module, level=1)` (main.py line 127): create the node if
absent and set its `level` attribute to 1. -/
def add_node (G : DiGraph) (n : String) : DiGraph :=
  let G' := ensureNode G n
  { G' with levels := setAssoc G'.levels n 1 }

/-- `G.successors(node)`: the adjacency list of `node`, in edge insertion
order; empty for an absent node. -/
def successors (G : DiGraph) (n : String) : List String :=
  (getAssoc G.adj n).getD []

/-- Append `v` to `u`'s adjacency list unless the edge already exists. -/
def appendSucc : List (String × List String) → String → String →
    List (String × List String)
  | [], _, _ => []
  | (k, s) :: t, u, v =>
    if k = u then (k, if v ∈ s then s else s ++ [v]) :: t
    else (k, s) :: appendSucc t u v

/-- `G.add_edge(u, v)` (main.py line 132): create the endpoints if absent
(with no `level` attribute) and record the edge. -/
def add_edge (G : DiGraph) (u v : String) : DiGraph :=
  let G' := ensureNode (ensureNode G u) v
  { G' with adj := appendSucc G'.adj u v }

/-- `G.in_degree(v)`: number of edges into `v`. -/
def in_degree (G : DiGraph) (v : String) : Nat :=
  (G.adj.map (fun p => p.2.count v)).sum

/-- `G.out_degree(n)`: number of edges out of `n`. -/
def out_degree (G : DiGraph) (n : String) : Nat :=
  (successors G n).length

/-- A list of nodes is a chain (directed walk) of the graph: every
consecutive pair is an edge. -/
def isChain (G : DiGraph) : List String → Bool
  | [] => true
  | [_] => true
  | u :: v :: rest => decide (v ∈ successors G u) && isChain G (v :: rest)

/-- Depth-first enumeration of the simple paths from `u` to `dest` that
avoid `visited`, with fuel bounding the path length; models
`nx.all_simple_paths` (order of enumeration aside, which the code's use
of `max` makes observationally irrelevant). -/
def simplePathsAux (G : DiGraph) (dest : String) :
    Nat → String → List String → List (List String)
  | 0, _, _ => []
  | fuel + 1, u, visited =>
    if u = dest then [[u]]
    else
      ((successors G u).filter (fun w => decide (w ∉ u :: visited))).flatMap
        (fun w => (simplePathsAux G dest fuel w (u :: visited)).map
          (fun p => u :: p))

/-- `nx.all_simple_paths(G, s, d)` (main.py line 105): all simple directed
paths from `s` to `d`; the fuel `|nodes| + 1` covers every simple path. -/
def all_simple_paths (G : DiGraph) (s d : String) : List (List String) :=
  simplePathsAux G d (G.nodes.length + 1) s []

/-- Python's `max(paths, key=len)`: the first element of maximal length,
or `none` for an empty sequence (`ValueError`). -/
def pyMax (l : List (List String)) : Option (List String) :=
  match l with
  | [] => none
  | x :: t =>
    some (t.foldl (fun best y => if best.length < y.length then y else best) x)

/-- The inner record scan of the pruner (main.py lines 109-113): find the
first record named `source`; if `destination` is in its `dependents`,
remove the first occurrence (`list.remove`); then `break`. -/
def removeDependent : List Mod → String → String → List Mod
  | [], _, _ => []
  | m :: rest, source, destination =>
    if m.name = source then
      (if destination ∈ m.dependents then
        { m with dependents := m.dependents.erase destination }
      else m) :: rest
    else m :: removeDependent rest source destination

/-- `removeModulesInIntermediatePaths` (main.py lines 104-113): take the
longest simple path from `source` to `destination`; for every strictly
interior node that is a direct successor of `source`, remove `destination`
from `source`'s recorded `dependents`.  The function touches only the
module records; the graph component of the result is the input graph.
`none` models the uncaught `ValueError` of `max` on an empty sequence. -/
def removeModulesInIntermediatePaths (G : DiGraph) (source destination : String)
    (succs : List String) (mods : List Mod) : Option (DiGraph × List Mod) :=
  match pyMax (all_simple_paths G source destination) with
  | none => none
  | some longestPath =>
    some (G, ((longestPath.drop 1).dropLast).foldl
      (fun acc n => if n ∈ succs then removeDependent acc source destination
                    else acc) mods)

/-- The inner `for successor in successors` loop of `calculateLevels`
(main.py lines 152-156): prune, set the successor's `level` attribute to
the current wave level, and append the successor to `temp` if absent. -/
def processSuccessors (node : String) (succs : List String) (lvl : Nat) :
    List String → List String → DiGraph → List Mod →
    Option (List String × DiGraph × List Mod)
  | [], temp, G, mods => some (temp, G, mods)
  | s :: rest, temp, G, mods =>
    match removeModulesInIntermediatePaths G node s succs mods with
    | none => none
    | some (G₁, mods₁) =>
      let G₂ : DiGraph := { G₁ with levels := setAssoc G₁.levels s lvl }
      let temp₁ := if s ∈ temp then temp else temp ++ [s]
      processSuccessors node succs lvl rest temp₁ G₂ mods₁

/-- The `for node in processingList` loop of `calculateLevels`
(main.py lines 148-156). -/
def processNodes (lvl : Nat) :
    List String → List String → DiGraph → List Mod →
    Option (List String × DiGraph × List Mod)
  | [], temp, G, mods => some (temp, G, mods)
  | node :: rest, temp, G, mods =>
    match processSuccessors node (successors G node) lvl (successors G node)
        temp G mods with
    | none => none
    | some (temp₁, G₁, mods₁) => processNodes lvl rest temp₁ G₁ mods₁

/-- The `while len(processingList) > 0` loop of `calculateLevels`
(main.py lines 146-158), with explicit fuel; exhausted fuel models
non-termination. -/
def runWaves : Nat → List String → Nat → DiGraph → List Mod →
    Option (DiGraph × List Mod)
  | _, [], _, G, mods => some (G, mods)
  | 0, _ :: _, _, _, _ => none
  | fuel + 1, pl, lvl, G, mods =>
    match processNodes lvl pl [] G mods with
    | none => none
    | some (temp, G₁, mods₁) => runWaves fuel temp (lvl + 1) G₁ mods₁

/-- Graph construction inside `calculateLevels` (main.py lines 126-132):
one `add_node` per entry of the module name list, then one `add_edge` per
recorded dependent of each module record. -/
def buildGraph (moduleNameList : List String) (mods : List Mod) : DiGraph :=
  let G₁ := moduleNameList.foldl add_node ⟨[], []⟩
  mods.foldl (fun G m =>
    m.dependents.foldl (fun G d => add_edge G m.name d) G) G₁

/-- The root scan (main.py line 137): nodes with in-degree 0 and non-zero
out-degree, in node insertion order. -/
def rootsOf (G : DiGraph) : List String :=
  G.nodes.filter (fun n =>
    decide (in_degree G n = 0) && decide (out_degree G n ≠ 0))

/-- The final write-back (main.py lines 160-161): copy each record's node
`level` attribute onto the record; a missing attribute is a `KeyError`,
modelled as `none`. -/
def writeLevels (G : DiGraph) : List Mod → Option (List Mod)
  | [] => some []
  | m :: rest =>
    match getAssoc G.levels m.name, writeLevels G rest with
    | some l, some rest' => some ({ m with level := l } :: rest')
    | _, _ => none

/-- `calculateLevels` (main.py lines 118-163): build the graph, run the
wave traversal from the roots starting at wave level 2, and write the
computed levels back onto the records. -/
def calculateLevels (moduleNameList : List String) (mods : List Mod) :
    Option (List Mod) :=
  let G := buildGraph moduleNameList mods
  match runWaves (G.nodes.length + 1) (rootsOf G) 2 G mods with
  | none => none
  | some (G', mods') => writeLevels G' mods'

/-- The pruning condition of `removeModulesInIntermediatePaths`, made
explicit: some simple path from `s` to `d` has at least two edges (three
nodes).  Whenever this holds, the first interior node of the longest path
is a direct successor of `s`, so the pruner fires; when it fails, the
longest path is the single edge and nothing is removed. -/
def hasAltPath (G : DiGraph) (s d : String) : Bool :=
  (all_simple_paths G s d).any (fun p => decide (3 ≤ p.length))

/-- The `dependents` list of the first record named `u` (empty if there is
no such record); the record scans in the code always use the first match. -/
def depsOf (mods : List Mod) (u : String) : List String :=
  ((mods.find? (fun m => decide (m.name = u))).map (fun m => m.dependents)).getD []

/-- The `level` of the first record named `u`. -/
def levelOf (mods : List Mod) (u : String) : Option Nat :=
  (mods.find? (fun m => decide (m.name = u))).map (fun m => m.level)

/-- Relation between a module record after and before a pruning step: all
fields equal except `dependents`, which may only lose elements
(order-preservingly). -/
def Shrinks (m' m : Mod) : Prop :=
  m'.name = m.name ∧ m'.version = m.version ∧ m'.release = m.release ∧
  m'.level = m.level ∧ m'.dependents.Sublist m.dependents

/-- Append an element to the `temp` list unless already present
(main.py lines 155-156). -/
def pushNew (temp : List String) (s : String) : List String :=
  if s ∈ temp then temp else temp ++ [s]

/-- The `temp` list produced by one wave over `pl`, starting from `temp`:
the successors of each processed node, appended without duplicates. -/
def nextFrontierFrom (G : DiGraph) (pl temp : List String) : List String :=
  pl.foldl (fun acc u => (successors G u).foldl pushNew acc) temp

/-- The processing list of the next wave. -/
def nextFrontier (G : DiGraph) (pl : List String) : List String :=
  nextFrontierFrom G pl []

/-- The processing list after `k` waves. -/
def frontierSeq (G : DiGraph) (pl : List String) : Nat → List String
  | 0 => pl
  | k + 1 => nextFrontier G (frontierSeq G pl k)

/-- The index of the last wave (within `fuel` waves, mirroring the
recursion of `runWaves`) whose `temp` list contains `v`; the node's final
`level` attribute is decided by this index. -/
def lastHit (G : DiGraph) : Nat → List String → String → Option Nat
  | _, [], _ => none
  | 0, _ :: _, _ => none
  | fuel + 1, pl, v =>
    match lastHit G fuel (nextFrontier G pl) v with
    | some j => some (j + 1)
    | none => if v ∈ nextFrontier G pl then some 0 else none

/-- A topological numbering of the graph's edges; its existence is the
acyclicity assumption the spec places on the input. -/
@[reducible] def TopoOrd (G : DiGraph) (ord : String → Nat) : Prop :=
  ∀ p ∈ G.adj, ∀ v ∈ p.2, ord p.1 < ord v

/-- Well-formedness of a graph as produced by `buildGraph`: adjacency
keys are distinct and every successor is itself a node. -/
@[reducible] def WfG (G : DiGraph) : Prop :=
  (G.adj.map Prod.fst).Nodup ∧ ∀ p ∈ G.adj, ∀ v ∈ p.2, v ∈ G.nodes

/-- Directed walks of the graph, measured in edges: `Steps G u v k` holds
when there is a walk of exactly `k` edges from `u` to `v`. -/
inductive Steps (G : DiGraph) : String → String → Nat → Prop
  | refl (u : String) : Steps G u u 0
  | snoc {u v w : String} {k : Nat} :
      Steps G u v k → w ∈ successors G v → Steps G u w (k + 1)

/-- `v` is reached from some zero-in-degree node (a root in the sense of
the spec) by a directed path of exactly `k` edges; `k = 0` holds exactly
when `v` itself has in-degree 0. -/
def ReachS (G : DiGraph) (v : String) (k : Nat) : Prop :=
  ∃ r, in_degree G r = 0 ∧ Steps G r v k

/-- The inner successor loop with the pruner call skipped; used to state
that the level computation does not depend on pruning. -/
def processSuccessorsNP (lvl : Nat) :
    List String → List String → DiGraph → List String × DiGraph
  | [], temp, G => (temp, G)
  | s :: rest, temp, G =>
    processSuccessorsNP lvl rest (pushNew temp s)
      { G with levels := setAssoc G.levels s lvl }

/-- The node loop with the pruner call skipped. -/
def processNodesNP (lvl : Nat) :
    List String → List String → DiGraph → List String × DiGraph
  | [], temp, G => (temp, G)
  | node :: rest, temp, G =>
    let r := processSuccessorsNP lvl (successors G node) temp G
    processNodesNP lvl rest r.1 r.2

/-- The wave loop with the pruner call skipped. -/
def runWavesNP : Nat → List String → Nat → DiGraph → Option DiGraph
  | _, [], _, G => some G
  | 0, _ :: _, _, _ => none
  | fuel + 1, pl, lvl, G =>
    let r := processNodesNP lvl pl [] G
    runWavesNP fuel r.1 (lvl + 1) r.2

/-- `calculateLevels` with the pruner call skipped: identical graph
construction, traversal and write-back, but `dependents` untouched. -/
def calculateLevelsNoPrune (moduleNameList : List String) (mods : List Mod) :
    Option (List Mod) :=
  let G := buildGraph moduleNameList mods
  match runWavesNP (G.nodes.length + 1) (rootsOf G) 2 G with
  | none => none
  | some G' => writeLevels G' mods

/-! ### Association list lemmas -/

theorem getAssoc_setAssoc_self {α : Type} (l : List (String × α)) (k : String)
    (v : α) : getAssoc (setAssoc l k v) k = some v := by
  induction l with
  | nil => simp [setAssoc, getAssoc]
  | cons h t ih =>
    obtain ⟨k', v'⟩ := h
    by_cases hk : k' = k
    · simp [setAssoc, hk, getAssoc]
    · simp [setAssoc, hk, getAssoc, ih]

theorem getAssoc_setAssoc_ne {α : Type} (l : List (String × α)) (k k' : String)
    (v : α) (h : k ≠ k') : getAssoc (setAssoc l k v) k' = getAssoc l k' := by
  induction l with
  | nil => simp [setAssoc, getAssoc, h]
  | cons p t ih =>
    obtain ⟨k₀, v₀⟩ := p
    by_cases hk : k₀ = k
    · subst hk
      simp [setAssoc, getAssoc, h]
    · simp [setAssoc, hk, getAssoc, ih]

theorem getAssoc_setAssoc_isSome {α : Type} (l : List (String × α))
    (k k' : String) (v : α) (h : (getAssoc l k').isSome) :
    (getAssoc (setAssoc l k v) k').isSome := by
  by_cases hk : k = k'
  · subst hk
    simp [getAssoc_setAssoc_self]
  · rwa [getAssoc_setAssoc_ne l k k' v hk]

/-! ### Lemmas about the record-scan removal -/

theorem shrinks_refl (m : Mod) : Shrinks m m :=
  ⟨rfl, rfl, rfl, rfl, List.Sublist.refl _⟩

theorem shrinks_self (mods : List Mod) : List.Forall₂ Shrinks mods mods := by
  induction mods with
  | nil => exact List.Forall₂.nil
  | cons m rest ih => exact List.Forall₂.cons (shrinks_refl m) ih

theorem shrinks_trans {a b c : List Mod} (h₁ : List.Forall₂ Shrinks a b)
    (h₂ : List.Forall₂ Shrinks b c) : List.Forall₂ Shrinks a c := by
  induction h₁ generalizing c with
  | nil => cases h₂; exact List.Forall₂.nil
  | cons hab t ih =>
    cases h₂ with
    | cons hbc t' =>
      refine List.Forall₂.cons ?_ (ih t')
      obtain ⟨h1, h2, h3, h4, h5⟩ := hab
      obtain ⟨g1, g2, g3, g4, g5⟩ := hbc
      exact ⟨h1.trans g1, h2.trans g2, h3.trans g3, h4.trans g4, h5.trans g5⟩

theorem removeDependent_shrinks (mods : List Mod) (s d : String) :
    List.Forall₂ Shrinks (removeDependent mods s d) mods := by
  induction mods with
  | nil => simp [removeDependent]
  | cons m rest ih =>
    simp only [removeDependent]
    by_cases h : m.name = s
    · rw [if_pos h]
      by_cases hd : d ∈ m.dependents
      · rw [if_pos hd]
        exact List.Forall₂.cons
          ⟨rfl, rfl, rfl, rfl, List.erase_sublist d m.dependents⟩
          (shrinks_self rest)
      · rw [if_neg hd]
        exact List.Forall₂.cons (shrinks_refl m) (shrinks_self rest)
    · rw [if_neg h]
      exact List.Forall₂.cons (shrinks_refl m) ih

theorem levelOf_of_shrinks {mods' mods : List Mod}
    (h : List.Forall₂ Shrinks mods' mods) (u : String) :
    levelOf mods' u = levelOf mods u := by
  induction h with
  | nil => rfl
  | cons hm t ih =>
    rename_i m' m l' l
    obtain ⟨h1, h2, h3, h4, h5⟩ := hm
    by_cases hn : m.name = u
    · rw [levelOf, levelOf, List.find?_cons_of_pos _ (by simp [h1, hn]),
        List.find?_cons_of_pos _ (by simp [hn])]
      simp [h4]
    · rw [levelOf, levelOf, List.find?_cons_of_neg _ (by simp [h1, hn]),
        List.find?_cons_of_neg _ (by simp [hn])]
      exact ih

theorem depsOf_of_shrinks {mods' mods : List Mod}
    (h : List.Forall₂ Shrinks mods' mods) (u : String) :
    (depsOf mods' u).Sublist (depsOf mods u) := by
  induction h with
  | nil => exact List.Sublist.refl _
  | cons hm t ih =>
    rename_i m' m l' l
    obtain ⟨h1, h2, h3, h4, h5⟩ := hm
    by_cases hn : m.name = u
    · rw [depsOf, depsOf, List.find?_cons_of_pos _ (by simp [h1, hn]),
        List.find?_cons_of_pos _ (by simp [hn])]
      simpa using h5
    · rw [depsOf, depsOf, List.find?_cons_of_neg _ (by simp [h1, hn]),
        List.find?_cons_of_neg _ (by simp [hn])]
      exact ih

theorem depsOf_cons_pos {m : Mod} {rest : List Mod} {u : String}
    (h : m.name = u) : depsOf (m :: rest) u = m.dependents := by
  rw [depsOf, List.find?_cons_of_pos _ (by simp [h])]
  rfl

theorem depsOf_cons_neg {m : Mod} {rest : List Mod} {u : String}
    (h : ¬ m.name = u) : depsOf (m :: rest) u = depsOf rest u := by
  rw [depsOf, List.find?_cons_of_neg _ (by simp [h])]
  rfl

theorem levelOf_cons_pos {m : Mod} {rest : List Mod} {u : String}
    (h : m.name = u) : levelOf (m :: rest) u = some m.level := by
  rw [levelOf, List.find?_cons_of_pos _ (by simp [h])]
  rfl

theorem levelOf_cons_neg {m : Mod} {rest : List Mod} {u : String}
    (h : ¬ m.name = u) : levelOf (m :: rest) u = levelOf rest u := by
  rw [levelOf, List.find?_cons_of_neg _ (by simp [h])]
  rfl

theorem depsOf_removeDependent_ne (mods : List Mod) (s d u : String)
    (h : u ≠ s) : depsOf (removeDependent mods s d) u = depsOf mods u := by
  induction mods with
  | nil => rfl
  | cons m rest ih =>
    simp only [removeDependent]
    by_cases hms : m.name = s
    · rw [if_pos hms]
      have hn : ¬ m.name = u := fun he => h (he ▸ hms)
      by_cases hd : d ∈ m.dependents
      · rw [if_pos hd]
        exact (depsOf_cons_neg
          (m := { m with dependents := m.dependents.erase d }) hn).trans
          (depsOf_cons_neg hn).symm
      · rw [if_neg hd]
    · rw [if_neg hms]
      by_cases hmu : m.name = u
      · rw [depsOf_cons_pos hmu, depsOf_cons_pos hmu]
      · rw [depsOf_cons_neg hmu, depsOf_cons_neg hmu]
        exact ih

theorem depsOf_removeDependent_self (mods : List Mod) (s d : String) :
    depsOf (removeDependent mods s d) s =
      if d ∈ depsOf mods s then (depsOf mods s).erase d else depsOf mods s := by
  induction mods with
  | nil => rfl
  | cons m rest ih =>
    simp only [removeDependent]
    by_cases hms : m.name = s
    · rw [if_pos hms, depsOf_cons_pos hms]
      by_cases hd : d ∈ m.dependents
      · rw [if_pos hd, if_pos hd, depsOf_cons_pos (by simpa using hms)]
      · rw [if_neg hd, if_neg hd, depsOf_cons_pos hms]
    · rw [if_neg hms, depsOf_cons_neg hms, depsOf_cons_neg hms]
      exact ih

theorem mem_depsOf_removeDependent_of_ne {mods : List Mod} {s d u v : String}
    (hv : v ∈ depsOf mods u) (hne : ¬ (u = s ∧ v = d)) :
    v ∈ depsOf (removeDependent mods s d) u := by
  by_cases hu : u = s
  · subst hu
    have hvd : v ≠ d := fun he => hne ⟨rfl, he⟩
    rw [depsOf_removeDependent_self]
    by_cases hd : d ∈ depsOf mods u
    · rw [if_pos hd]
      exact (List.mem_erase_of_ne hvd).mpr hv
    · rwa [if_neg hd]
  · rwa [depsOf_removeDependent_ne mods s d u hu]

theorem not_mem_depsOf_removeDependent {mods : List Mod} {s d : String}
    (hnd : (depsOf mods s).Nodup) :
    d ∉ depsOf (removeDependent mods s d) s := by
  rw [depsOf_removeDependent_self]
  by_cases hd : d ∈ depsOf mods s
  · rw [if_pos hd]
    intro hmem
    exact ((hnd.mem_erase_iff).mp hmem).1 rfl
  · rwa [if_neg hd]

theorem removeDependent_idem (mods : List Mod) (s d : String)
    (hnd : (depsOf mods s).Nodup) :
    removeDependent (removeDependent mods s d) s d = removeDependent mods s d := by
  induction mods with
  | nil => rfl
  | cons m rest ih =>
    by_cases hms : m.name = s
    · have hdeps : depsOf (m :: rest) s = m.dependents := depsOf_cons_pos hms
      rw [hdeps] at hnd
      by_cases hd : d ∈ m.dependents
      · have hne : d ∉ m.dependents.erase d := by
          intro hmem
          exact ((hnd.mem_erase_iff).mp hmem).1 rfl
        simp [removeDependent, hms, hd, hne]
      · simp [removeDependent, hms, hd]
    · have hdeps : depsOf (m :: rest) s = depsOf rest s := depsOf_cons_neg hms
      rw [hdeps] at hnd
      simp only [removeDependent, if_neg hms]
      rw [ih hnd]

/-! ### Lemmas about Python's `max(..., key=len)` -/

theorem foldlMax_mem (t : List (List String)) (x : List String) :
    t.foldl (fun best y => if best.length < y.length then y else best) x ∈
      x :: t := by
  induction t generalizing x with
  | nil => simp
  | cons y rest ih =>
    simp only [List.foldl]
    rcases List.mem_cons.mp (ih (if x.length < y.length then y else x)) with
      h | h
    · by_cases hxy : x.length < y.length
      · rw [if_pos hxy] at h ⊢
        rw [h]
        exact List.mem_cons_of_mem x (List.mem_cons_self y rest)
      · rw [if_neg hxy] at h ⊢
        rw [h]
        exact List.mem_cons_self x (y :: rest)
    · exact List.mem_cons_of_mem x (List.mem_cons_of_mem y h)

theorem foldlMax_ge_init (t : List (List String)) (x : List String) :
    x.length ≤
      (t.foldl (fun best y => if best.length < y.length then y else best)
        x).length := by
  induction t generalizing x with
  | nil => exact Nat.le_refl _
  | cons y rest ih =>
    simp only [List.foldl]
    refine Nat.le_trans ?_ (ih (if x.length < y.length then y else x))
    by_cases hxy : x.length < y.length
    · rw [if_pos hxy]
      exact Nat.le_of_lt hxy
    · rw [if_neg hxy]

theorem foldlMax_ge_mem (t : List (List String)) (x q : List String)
    (hq : q ∈ t) :
    q.length ≤
      (t.foldl (fun best y => if best.length < y.length then y else best)
        x).length := by
  induction t generalizing x with
  | nil => simp at hq
  | cons y rest ih =>
    simp only [List.foldl]
    rcases List.mem_cons.mp hq with hqy | hqt
    · subst hqy
      refine Nat.le_trans ?_ (foldlMax_ge_init rest _)
      by_cases hxy : x.length < q.length
      · rw [if_pos hxy]
      · rw [if_neg hxy]
        exact Nat.le_of_not_lt hxy
    · exact ih _ hqt

theorem pyMax_mem {l : List (List String)} {p : List String}
    (h : pyMax l = some p) : p ∈ l := by
  cases l with
  | nil => simp [pyMax] at h
  | cons x t =>
    simp only [pyMax, Option.some.injEq] at h
    rw [← h]
    exact foldlMax_mem t x

theorem pyMax_le {l : List (List String)} {p : List String}
    (h : pyMax l = some p) : ∀ q ∈ l, q.length ≤ p.length := by
  cases l with
  | nil => simp [pyMax] at h
  | cons x t =>
    intro q hq
    simp only [pyMax, Option.some.injEq] at h
    rw [← h]
    rcases List.mem_cons.mp hq with hqx | hqt
    · rw [hqx]
      exact foldlMax_ge_init t x
    · exact foldlMax_ge_mem t x q hqt

theorem pyMax_isSome {l : List (List String)} (h : l ≠ []) :
    (pyMax l).isSome := by
  cases l with
  | nil => exact absurd rfl h
  | cons x t => simp [pyMax]

/-! ### Chains (directed walks) -/

theorem isChain_cons_cons {G : DiGraph} {u v : String} {rest : List String} :
    isChain G (u :: v :: rest) = true ↔
      v ∈ successors G u ∧ isChain G (v :: rest) = true := by
  simp [isChain]

theorem isChain_tail {G : DiGraph} {u : String} {t : List String}
    (h : isChain G (u :: t) = true) : isChain G t = true := by
  cases t with
  | nil => rfl
  | cons v rest => exact (isChain_cons_cons.mp h).2

theorem getAssoc_mem {α : Type} {l : List (String × α)} {k : String} {v : α}
    (h : getAssoc l k = some v) : (k, v) ∈ l := by
  induction l with
  | nil => simp [getAssoc] at h
  | cons p t ih =>
    obtain ⟨k', v'⟩ := p
    by_cases hk : k' = k
    · subst hk
      rw [getAssoc, if_pos rfl] at h
      cases h
      exact List.mem_cons_self _ _
    · rw [getAssoc, if_neg hk] at h
      exact List.mem_cons_of_mem _ (ih h)

theorem mem_nodes_of_mem_successors {G : DiGraph} {u v : String}
    (hWf : WfG G) (h : v ∈ successors G u) : v ∈ G.nodes := by
  unfold successors at h
  cases hg : getAssoc G.adj u with
  | none => rw [hg] at h; simp at h
  | some l =>
    rw [hg] at h
    exact hWf.2 (u, l) (getAssoc_mem hg) v h

theorem chain_tail_subset_nodes {G : DiGraph} (hWf : WfG G) :
    ∀ (u : String) (t : List String), isChain G (u :: t) = true →
      ∀ x ∈ t, x ∈ G.nodes := by
  intro u t
  induction t generalizing u with
  | nil => intro _ x hx; simp at hx
  | cons v rest ih =>
    intro h x hx
    obtain ⟨hedge, hrest⟩ := isChain_cons_cons.mp h
    rcases List.mem_cons.mp hx with hxv | hxt
    · subst hxv
      exact mem_nodes_of_mem_successors hWf hedge
    · exact ih v hrest x hxt

theorem chain_length_le {G : DiGraph} (hWf : WfG G) {p : List String}
    (hc : isChain G p = true) (hnd : p.Nodup)
    (hhead : ∀ h ∈ p.head?, h ∈ G.nodes) :
    p.length ≤ G.nodes.length := by
  cases p with
  | nil => simp
  | cons u t =>
    have hsub : (u :: t) ⊆ G.nodes := by
      intro x hx
      rcases List.mem_cons.mp hx with hxu | hxt
      · rw [hxu]
        exact hhead u rfl
      · exact chain_tail_subset_nodes hWf u t hc x hxt
    exact (hnd.subperm hsub).length_le

/-! ### Soundness and completeness of the simple-path enumeration -/

theorem simplePathsAux_sound (G : DiGraph) (dest : String) :
    ∀ (fuel : Nat) (u : String) (visited : List String),
      ∀ p ∈ simplePathsAux G dest fuel u visited,
      ∃ t, p = u :: t ∧ isChain G p = true ∧ p.getLast? = some dest ∧
        p.Nodup ∧ ∀ x ∈ t, x ∉ u :: visited := by
  intro fuel
  induction fuel with
  | zero => intro u visited p hp; simp [simplePathsAux] at hp
  | succ fuel ih =>
    intro u visited p hp
    rw [simplePathsAux] at hp
    by_cases hud : u = dest
    · rw [if_pos hud] at hp
      simp only [List.mem_singleton] at hp
      subst hp
      exact ⟨[], rfl, rfl, by simp [hud], List.nodup_singleton u,
        by intro x hx; simp at hx⟩
    · rw [if_neg hud] at hp
      rcases List.mem_flatMap.mp hp with ⟨w, hw, hpw⟩
      rcases List.mem_filter.mp hw with ⟨hwsucc, hwnv⟩
      have hwnv' : w ∉ u :: visited := by simpa using hwnv
      rcases List.mem_map.mp hpw with ⟨q, hq, hpq⟩
      rcases ih w (u :: visited) q hq with ⟨t', hq', hchain, hlast, hnd, hvis⟩
      subst hpq
      subst hq'
      refine ⟨w :: t', rfl, ?_, ?_, ?_, ?_⟩
      · exact isChain_cons_cons.mpr ⟨hwsucc, hchain⟩
      · rwa [List.getLast?_cons_cons]
      · refine List.nodup_cons.mpr ⟨?_, hnd⟩
        intro hu
        rcases List.mem_cons.mp hu with huw | hut
        · exact hwnv' (huw ▸ List.mem_cons_self u visited)
        · exact (hvis u hut)
            (List.mem_cons_of_mem w (List.mem_cons_self u visited))
      · intro x hx
        rcases List.mem_cons.mp hx with hxw | hxt
        · exact hxw ▸ hwnv'
        · intro hxuv
          exact hvis x hxt (List.mem_cons_of_mem w hxuv)

theorem simplePathsAux_complete (G : DiGraph) (dest : String) :
    ∀ (fuel : Nat) (u : String) (visited : List String) (p : List String),
      p.head? = some u → p.getLast? = some dest → isChain G p = true →
      p.Nodup → (∀ x ∈ p, x ∉ visited) → p.length ≤ fuel →
      p ∈ simplePathsAux G dest fuel u visited := by
  intro fuel
  induction fuel with
  | zero =>
    intro u visited p hh _ _ _ _ hlen
    rw [List.length_eq_zero.mp (Nat.le_zero.mp hlen)] at hh
    simp at hh
  | succ fuel ih =>
    intro u visited p hh hl hc hnd hvis hlen
    cases p with
    | nil => simp at hh
    | cons u' t =>
      have hu : u = u' := by
        have h' : u' = u := by simpa using hh
        exact h'.symm
      subst hu
      rw [simplePathsAux]
      by_cases hud : u = dest
      · rw [if_pos hud]
        have ht : t = [] := by
          cases t with
          | nil => rfl
          | cons w t' =>
            exfalso
            have hdt : dest ∈ w :: t' := by
              rw [List.getLast?_cons_cons] at hl
              rcases List.mem_getLast?_eq_getLast hl with ⟨hne, heq⟩
              rw [heq]
              exact List.getLast_mem hne
            rw [← hud] at hdt
            exact (List.nodup_cons.mp hnd).1 hdt
        subst ht
        simp
      · rw [if_neg hud]
        cases t with
        | nil =>
          exfalso
          exact hud (by simpa using hl)
        | cons w t' =>
          obtain ⟨hedge, hchain⟩ := isChain_cons_cons.mp hc
          refine List.mem_flatMap.mpr ⟨w, ?_, ?_⟩
          · refine List.mem_filter.mpr ⟨hedge, ?_⟩
            simp only [decide_eq_true_eq]
            intro hw
            rcases List.mem_cons.mp hw with hwu | hwv
            · exact (List.nodup_cons.mp hnd).1
                (hwu ▸ List.mem_cons_self w t')
            · exact hvis w (List.mem_cons_of_mem u (List.mem_cons_self w t'))
                hwv
          · refine List.mem_map.mpr ⟨w :: t', ?_, rfl⟩
            refine ih w (u :: visited) (w :: t') rfl ?_ hchain
              (List.nodup_cons.mp hnd).2 ?_ ?_
            · rwa [List.getLast?_cons_cons] at hl
            · intro x hx
              intro hxm
              rcases List.mem_cons.mp hxm with hxu | hxv
              · exact (List.nodup_cons.mp hnd).1 (hxu ▸ hx)
              · exact hvis x (List.mem_cons_of_mem u hx) hxv
            · simpa using hlen

theorem mem_of_getLast?_eq {l : List String} {x : String}
    (h : l.getLast? = some x) : x ∈ l := by
  rcases List.mem_getLast?_eq_getLast h with ⟨hne, heq⟩
  rw [heq]
  exact List.getLast_mem hne

theorem mem_nodes_of_successors_ne {G : DiGraph} {u v : String}
    (h : v ∈ successors G u) : u ∈ G.nodes := by
  unfold successors at h
  cases hg : getAssoc G.adj u with
  | none => rw [hg] at h; simp at h
  | some l =>
    have := getAssoc_mem hg
    exact List.mem_map.mpr ⟨(u, l), this, rfl⟩

theorem all_simple_paths_sound {G : DiGraph} {s d : String} {p : List String}
    (hp : p ∈ all_simple_paths G s d) :
    isChain G p = true ∧ p.head? = some s ∧ p.getLast? = some d ∧ p.Nodup := by
  rcases simplePathsAux_sound G d (G.nodes.length + 1) s [] p hp with
    ⟨t, hpt, hc, hl, hnd, _⟩
  exact ⟨hc, by rw [hpt]; rfl, hl, hnd⟩

theorem all_simple_paths_complete {G : DiGraph} {s d : String}
    {p : List String} (hWf : WfG G) (hs : s ∈ G.nodes)
    (hh : p.head? = some s) (hl : p.getLast? = some d)
    (hc : isChain G p = true) (hnd : p.Nodup) :
    p ∈ all_simple_paths G s d := by
  refine simplePathsAux_complete G d (G.nodes.length + 1) s [] p hh hl hc hnd
    (by intro x _ hx; simp at hx) ?_
  have : p.length ≤ G.nodes.length := by
    refine chain_length_le hWf hc hnd ?_
    intro h hmem
    have : h = s := by rw [hh] at hmem; simpa using hmem.symm
    rw [this]
    exact hs
  omega

/-! ### Chains under a topological numbering -/

theorem edge_ord {G : DiGraph} {ord : String → Nat} (ht : TopoOrd G ord)
    {u v : String} (h : v ∈ successors G u) : ord u < ord v := by
  unfold successors at h
  cases hg : getAssoc G.adj u with
  | none => rw [hg] at h; simp at h
  | some l =>
    rw [hg] at h
    exact ht (u, l) (getAssoc_mem hg) v h

theorem edge_ne {G : DiGraph} {ord : String → Nat} (ht : TopoOrd G ord)
    {u v : String} (h : v ∈ successors G u) : u ≠ v := by
  intro he
  have hlt := edge_ord ht h
  rw [he] at hlt
  exact Nat.lt_irrefl _ hlt

theorem chain_chain' {G : DiGraph} {ord : String → Nat} (ht : TopoOrd G ord) :
    ∀ {p : List String}, isChain G p = true →
      List.Chain' (fun a b => ord a < ord b) p := by
  intro p
  induction p with
  | nil => intro _; simp
  | cons u t ih =>
    intro hc
    cases t with
    | nil => simp
    | cons v rest =>
      obtain ⟨hedge, hrest⟩ := isChain_cons_cons.mp hc
      exact List.Chain'.cons (edge_ord ht hedge) (ih hrest)

theorem chain_nodup_of_topo {G : DiGraph} {ord : String → Nat}
    (ht : TopoOrd G ord) {p : List String} (hc : isChain G p = true) :
    p.Nodup := by
  have htr : IsTrans String (fun a b => ord a < ord b) :=
    ⟨fun _ _ _ h1 h2 => Nat.lt_trans h1 h2⟩
  have hpw : List.Pairwise (fun a b => ord a < ord b) p :=
    List.chain'_iff_pairwise.mp (chain_chain' ht hc)
  exact hpw.imp (fun hlt => by
    intro he
    rw [he] at hlt
    exact Nat.lt_irrefl _ hlt)

theorem mem_all_simple_paths_edge {G : DiGraph} {s d : String}
    (hWf : WfG G) (hedge : d ∈ successors G s) (hne : s ≠ d) :
    [s, d] ∈ all_simple_paths G s d := by
  refine all_simple_paths_complete hWf (mem_nodes_of_successors_ne hedge)
    rfl rfl ?_ ?_
  · simp [isChain, hedge]
  · simp [hne]

/-! ### Characterization of the pruner -/

theorem depsOf_removeDependent_nodup {mods : List Mod} {s d : String}
    (hnd : (depsOf mods s).Nodup) :
    (depsOf (removeDependent mods s d) s).Nodup := by
  rw [depsOf_removeDependent_self]
  by_cases hd : d ∈ depsOf mods s
  · rw [if_pos hd]
    exact hnd.erase d
  · rwa [if_neg hd]

theorem prune_foldl_eq (succs : List String) (s d : String) :
    ∀ (interior : List String) (mods : List Mod),
      (depsOf mods s).Nodup →
      interior.foldl
        (fun acc n => if n ∈ succs then removeDependent acc s d else acc)
        mods =
      if ∃ n ∈ interior, n ∈ succs then removeDependent mods s d else mods := by
  intro interior
  induction interior with
  | nil => intro mods _; simp
  | cons n rest ih =>
    intro mods hnd
    simp only [List.foldl]
    by_cases hn : n ∈ succs
    · rw [if_pos hn, ih (removeDependent mods s d)
        (depsOf_removeDependent_nodup hnd)]
      have hex : ∃ x ∈ n :: rest, x ∈ succs := ⟨n, List.mem_cons_self n rest, hn⟩
      rw [if_pos hex]
      by_cases hex' : ∃ x ∈ rest, x ∈ succs
      · rw [if_pos hex']
        exact removeDependent_idem mods s d hnd
      · rw [if_neg hex']
    · rw [if_neg hn, ih mods hnd]
      by_cases hex' : ∃ x ∈ rest, x ∈ succs
      · rw [if_pos hex']
        have hex : ∃ x ∈ n :: rest, x ∈ succs := by
          rcases hex' with ⟨x, hx, hxs⟩
          exact ⟨x, List.mem_cons_of_mem n hx, hxs⟩
        rw [if_pos hex]
      · rw [if_neg hex']
        have hex : ¬ ∃ x ∈ n :: rest, x ∈ succs := by
          intro ⟨x, hx, hxs⟩
          rcases List.mem_cons.mp hx with hxn | hxr
          · exact hn (hxn ▸ hxs)
          · exact hex' ⟨x, hxr, hxs⟩
        rw [if_neg hex]

theorem prune_foldl_shrinks (succs : List String) (s d : String) :
    ∀ (interior : List String) (mods : List Mod),
      List.Forall₂ Shrinks
        (interior.foldl
          (fun acc n => if n ∈ succs then removeDependent acc s d else acc)
          mods)
        mods := by
  intro interior
  induction interior with
  | nil => intro mods; exact shrinks_self mods
  | cons n rest ih =>
    intro mods
    simp only [List.foldl]
    by_cases hn : n ∈ succs
    · rw [if_pos hn]
      exact shrinks_trans (ih (removeDependent mods s d))
        (removeDependent_shrinks mods s d)
    · rw [if_neg hn]
      exact ih mods

theorem prune_foldl_mem_preserved (succs : List String) (s d : String) :
    ∀ (interior : List String) (mods : List Mod) (u v : String),
      v ∈ depsOf mods u → ¬ (u = s ∧ v = d) →
      v ∈ depsOf
        (interior.foldl
          (fun acc n => if n ∈ succs then removeDependent acc s d else acc)
          mods) u := by
  intro interior
  induction interior with
  | nil => intro mods u v hv _; exact hv
  | cons n rest ih =>
    intro mods u v hv hne
    simp only [List.foldl]
    by_cases hn : n ∈ succs
    · rw [if_pos hn]
      exact ih _ u v (mem_depsOf_removeDependent_of_ne hv hne) hne
    · rw [if_neg hn]
      exact ih _ u v hv hne

theorem removeModules_graph_frame {G G' : DiGraph} {s d : String}
    {succs : List String} {mods mods' : List Mod}
    (h : removeModulesInIntermediatePaths G s d succs mods =
      some (G', mods')) : G' = G := by
  unfold removeModulesInIntermediatePaths at h
  cases hp : pyMax (all_simple_paths G s d) with
  | none => rw [hp] at h; simp at h
  | some p =>
    rw [hp] at h
    simp only [Option.some.injEq, Prod.mk.injEq] at h
    exact h.1.symm

theorem removeModules_shrinks {G G' : DiGraph} {s d : String}
    {succs : List String} {mods mods' : List Mod}
    (h : removeModulesInIntermediatePaths G s d succs mods =
      some (G', mods')) : List.Forall₂ Shrinks mods' mods := by
  unfold removeModulesInIntermediatePaths at h
  cases hp : pyMax (all_simple_paths G s d) with
  | none => rw [hp] at h; simp at h
  | some p =>
    rw [hp] at h
    simp only [Option.some.injEq, Prod.mk.injEq] at h
    rw [← h.2]
    exact prune_foldl_shrinks succs s d _ mods

theorem removeModules_mem_preserved {G G' : DiGraph} {s d u v : String}
    {succs : List String} {mods mods' : List Mod}
    (h : removeModulesInIntermediatePaths G s d succs mods =
      some (G', mods'))
    (hv : v ∈ depsOf mods u) (hne : ¬ (u = s ∧ v = d)) :
    v ∈ depsOf mods' u := by
  unfold removeModulesInIntermediatePaths at h
  cases hp : pyMax (all_simple_paths G s d) with
  | none => rw [hp] at h; simp at h
  | some p =>
    rw [hp] at h
    simp only [Option.some.injEq, Prod.mk.injEq] at h
    rw [← h.2]
    exact prune_foldl_mem_preserved succs s d _ mods u v hv hne

theorem removeModules_isSome {G : DiGraph} {s d : String}
    (succs : List String) (mods : List Mod)
    (hne : all_simple_paths G s d ≠ []) :
    ∃ mods', removeModulesInIntermediatePaths G s d succs mods =
      some (G, mods') := by
  unfold removeModulesInIntermediatePaths
  cases hp : pyMax (all_simple_paths G s d) with
  | none =>
    exfalso
    have := pyMax_isSome hne
    rw [hp] at this
    simp at this
  | some p => exact ⟨_, rfl⟩

theorem removeModules_of_hasAltPath {G : DiGraph} {s d : String}
    {mods : List Mod} (hnd : (depsOf mods s).Nodup)
    (halt : hasAltPath G s d = true) :
    removeModulesInIntermediatePaths G s d (successors G s) mods =
      some (G, removeDependent mods s d) := by
  rcases List.any_eq_true.mp halt with ⟨q, hq, hq3⟩
  have hq3' : 3 ≤ q.length := of_decide_eq_true hq3
  have hnenil : all_simple_paths G s d ≠ [] := by
    intro hnil
    rw [hnil] at hq
    simp at hq
  unfold removeModulesInIntermediatePaths
  cases hp : pyMax (all_simple_paths G s d) with
  | none =>
    exfalso
    have := pyMax_isSome hnenil
    rw [hp] at this
    simp at this
  | some p =>
    have hp3 : 3 ≤ p.length := Nat.le_trans hq3' (pyMax_le hp q hq)
    rcases all_simple_paths_sound (pyMax_mem hp) with ⟨hc, hh, hl, hnd'⟩
    cases p with
    | nil => simp at hh
    | cons s' t =>
      have hs : s = s' := by
        have h' : s' = s := by simpa using hh
        exact h'.symm
      subst hs
      cases t with
      | nil => simp at hp3
      | cons w t2 =>
        cases t2 with
        | nil => simp at hp3
        | cons r1 rest =>
          have hedge : w ∈ successors G s := (isChain_cons_cons.mp hc).1
          dsimp only
          simp only [List.drop_succ_cons, List.drop_zero, List.dropLast_cons₂]
          rw [prune_foldl_eq (successors G s) s d _ mods hnd]
          rw [if_pos ⟨w, List.mem_cons_self w _, hedge⟩]

theorem removeModules_of_not_hasAltPath {G : DiGraph} {s d : String}
    (succs : List String) (mods : List Mod)
    (hnenil : all_simple_paths G s d ≠ [])
    (halt : hasAltPath G s d = false) :
    removeModulesInIntermediatePaths G s d succs mods = some (G, mods) := by
  unfold removeModulesInIntermediatePaths
  cases hp : pyMax (all_simple_paths G s d) with
  | none =>
    exfalso
    have := pyMax_isSome hnenil
    rw [hp] at this
    simp at this
  | some p =>
    have hlt : p.length < 3 := by
      by_contra hge
      have htrue : hasAltPath G s d = true :=
        List.any_eq_true.mpr ⟨p, pyMax_mem hp,
          decide_eq_true (Nat.le_of_not_lt hge)⟩
      rw [htrue] at halt
      simp at halt
    have hint : (p.drop 1).dropLast = [] := by
      match p, hlt with
      | [], _ => rfl
      | [a], _ => rfl
      | [a, b], _ => rfl
    dsimp only
    rw [hint]
    rfl

/-! ### The wave traversal: frame and frontier characterization -/

theorem successors_congr {G₁ G₂ : DiGraph} (h : G₁.adj = G₂.adj) :
    successors G₁ = successors G₂ := by
  funext n
  unfold successors
  rw [h]

theorem nextFrontierFrom_congr {G₁ G₂ : DiGraph} (h : G₁.adj = G₂.adj)
    (pl temp : List String) :
    nextFrontierFrom G₁ pl temp = nextFrontierFrom G₂ pl temp := by
  unfold nextFrontierFrom
  rw [successors_congr h]

theorem nextFrontier_congr {G₁ G₂ : DiGraph} (h : G₁.adj = G₂.adj)
    (pl : List String) : nextFrontier G₁ pl = nextFrontier G₂ pl :=
  nextFrontierFrom_congr h pl []

theorem lastHit_congr {G₁ G₂ : DiGraph} (h : G₁.adj = G₂.adj) :
    ∀ (fuel : Nat) (pl : List String) (v : String),
      lastHit G₁ fuel pl v = lastHit G₂ fuel pl v := by
  intro fuel
  induction fuel with
  | zero =>
    intro pl v
    cases pl <;> rfl
  | succ fuel ih =>
    intro pl v
    cases pl with
    | nil => rfl
    | cons p t =>
      rw [lastHit, lastHit, nextFrontier_congr h, ih]
      all_goals simp

theorem mem_foldl_pushNew (ss : List String) :
    ∀ (acc : List String) (v : String),
      v ∈ ss.foldl pushNew acc ↔ v ∈ acc ∨ v ∈ ss := by
  induction ss with
  | nil => intro acc v; simp
  | cons s rest ih =>
    intro acc v
    simp only [List.foldl]
    rw [ih]
    unfold pushNew
    by_cases hs : s ∈ acc
    · rw [if_pos hs]
      constructor
      · rintro (h | h)
        · exact Or.inl h
        · exact Or.inr (List.mem_cons_of_mem s h)
      · rintro (h | h)
        · exact Or.inl h
        · rcases List.mem_cons.mp h with hv | hv
          · exact Or.inl (hv ▸ hs)
          · exact Or.inr hv
    · rw [if_neg hs]
      constructor
      · rintro (h | h)
        · rcases List.mem_append.mp h with hv | hv
          · exact Or.inl hv
          · exact Or.inr (List.mem_cons.mpr (Or.inl (by simpa using hv)))
        · exact Or.inr (List.mem_cons_of_mem s h)
      · rintro (h | h)
        · exact Or.inl (List.mem_append.mpr (Or.inl h))
        · rcases List.mem_cons.mp h with hv | hv
          · exact Or.inl (List.mem_append.mpr (Or.inr (by simp [hv])))
          · exact Or.inr hv

theorem mem_nextFrontierFrom {G : DiGraph} (pl : List String) :
    ∀ (temp : List String) (v : String),
      v ∈ nextFrontierFrom G pl temp ↔
        v ∈ temp ∨ ∃ u ∈ pl, v ∈ successors G u := by
  induction pl with
  | nil => intro temp v; simp [nextFrontierFrom]
  | cons u rest ih =>
    intro temp v
    unfold nextFrontierFrom at ih ⊢
    simp only [List.foldl]
    rw [ih]
    rw [mem_foldl_pushNew]
    constructor
    · rintro ((h | h) | ⟨u', hu', hv⟩)
      · exact Or.inl h
      · exact Or.inr ⟨u, List.mem_cons_self u rest, h⟩
      · exact Or.inr ⟨u', List.mem_cons_of_mem u hu', hv⟩
    · rintro (h | ⟨u', hu', hv⟩)
      · exact Or.inl (Or.inl h)
      · rcases List.mem_cons.mp hu' with hu | hu
        · exact Or.inl (Or.inr (hu ▸ hv))
        · exact Or.inr ⟨u', hu, hv⟩

theorem mem_nextFrontier {G : DiGraph} {pl : List String} {v : String} :
    v ∈ nextFrontier G pl ↔ ∃ u ∈ pl, v ∈ successors G u := by
  rw [nextFrontier, mem_nextFrontierFrom]
  simp

theorem getAssoc_foldl_setAssoc (lvl : Nat) (ss : List String) :
    ∀ (L : List (String × Nat)) (v : String),
      getAssoc (ss.foldl (fun L s => setAssoc L s lvl) L) v =
        if v ∈ ss then some lvl else getAssoc L v := by
  induction ss with
  | nil => intro L v; simp
  | cons s rest ih =>
    intro L v
    simp only [List.foldl]
    rw [ih]
    by_cases hv : v ∈ rest
    · rw [if_pos hv, if_pos (List.mem_cons_of_mem s hv)]
    · rw [if_neg hv]
      by_cases hvs : v = s
      · rw [if_pos (List.mem_cons.mpr (Or.inl hvs)), hvs,
          getAssoc_setAssoc_self]
      · rw [if_neg (by
            intro h
            rcases List.mem_cons.mp h with h | h
            · exact hvs h
            · exact hv h),
          getAssoc_setAssoc_ne L s v lvl (fun h => hvs h.symm)]

theorem processSuccessors_spec (node : String) (succs : List String)
    (lvl : Nat) :
    ∀ (rest temp : List String) (G : DiGraph) (mods : List Mod)
      (t : List String) (G' : DiGraph) (mods' : List Mod),
      processSuccessors node succs lvl rest temp G mods =
        some (t, G', mods') →
      t = rest.foldl pushNew temp ∧ G'.adj = G.adj ∧
      G'.levels = rest.foldl (fun L s => setAssoc L s lvl) G.levels ∧
      List.Forall₂ Shrinks mods' mods := by
  intro rest
  induction rest with
  | nil =>
    intro temp G mods t G' mods' h
    rw [processSuccessors] at h
    simp only [Option.some.injEq, Prod.mk.injEq] at h
    obtain ⟨h1, h2, h3⟩ := h
    subst h1
    subst h2
    subst h3
    exact ⟨rfl, rfl, rfl, shrinks_self mods⟩
  | cons s srest ih =>
    intro temp G mods t G' mods' h
    rw [processSuccessors] at h
    cases hrm : removeModulesInIntermediatePaths G node s succs mods with
    | none => rw [hrm] at h; simp at h
    | some r =>
      obtain ⟨G₁, mods₁⟩ := r
      rw [hrm] at h
      simp only at h
      have hG₁ : G = G₁ := (removeModules_graph_frame hrm).symm
      subst hG₁
      rcases ih (pushNew temp s) ⟨G.adj, setAssoc G.levels s lvl⟩ mods₁ t G'
        mods' h with ⟨ht, hadj, hlv, hshr⟩
      exact ⟨ht, hadj, hlv, shrinks_trans hshr (removeModules_shrinks hrm)⟩

theorem getAssoc_foldl_waveWrite (G : DiGraph) (lvl : Nat)
    (pl : List String) :
    ∀ (L : List (String × Nat)) (v : String),
      getAssoc
        (pl.foldl
          (fun L u => (successors G u).foldl (fun L s => setAssoc L s lvl) L)
          L) v =
        if ∃ u ∈ pl, v ∈ successors G u then some lvl else getAssoc L v := by
  induction pl with
  | nil => intro L v; simp
  | cons u rest ih =>
    intro L v
    simp only [List.foldl]
    rw [ih]
    by_cases h1 : ∃ u' ∈ rest, v ∈ successors G u'
    · rw [if_pos h1, if_pos (by
        rcases h1 with ⟨u', hu', hv⟩
        exact ⟨u', List.mem_cons_of_mem u hu', hv⟩)]
    · rw [if_neg h1, getAssoc_foldl_setAssoc]
      by_cases h2 : v ∈ successors G u
      · rw [if_pos h2, if_pos ⟨u, List.mem_cons_self u rest, h2⟩]
      · rw [if_neg h2, if_neg (by
          intro ⟨u', hu', hv⟩
          rcases List.mem_cons.mp hu' with hu | hu
          · exact h2 (hu ▸ hv)
          · exact h1 ⟨u', hu, hv⟩)]

theorem processNodes_spec (lvl : Nat) :
    ∀ (pl temp : List String) (G : DiGraph) (mods : List Mod)
      (t : List String) (G' : DiGraph) (mods' : List Mod),
      processNodes lvl pl temp G mods = some (t, G', mods') →
      t = nextFrontierFrom G pl temp ∧ G'.adj = G.adj ∧
      G'.levels = pl.foldl
        (fun L u => (successors G u).foldl (fun L s => setAssoc L s lvl) L)
        G.levels ∧
      List.Forall₂ Shrinks mods' mods := by
  intro pl
  induction pl with
  | nil =>
    intro temp G mods t G' mods' h
    rw [processNodes] at h
    simp only [Option.some.injEq, Prod.mk.injEq] at h
    obtain ⟨h1, h2, h3⟩ := h
    subst h1
    subst h2
    subst h3
    exact ⟨rfl, rfl, rfl, shrinks_self mods⟩
  | cons node rest ih =>
    intro temp G mods t G' mods' h
    rw [processNodes] at h
    cases hps : processSuccessors node (successors G node) lvl
        (successors G node) temp G mods with
    | none => rw [hps] at h; simp at h
    | some r =>
      obtain ⟨t₁, G₁, mods₁⟩ := r
      rw [hps] at h
      simp only at h
      rcases processSuccessors_spec node (successors G node) lvl
        (successors G node) temp G mods t₁ G₁ mods₁ hps with
        ⟨ht₁, hadj₁, hlv₁, hshr₁⟩
      rcases ih t₁ G₁ mods₁ t G' mods' h with ⟨ht, hadj, hlv, hshr⟩
      refine ⟨?_, hadj.trans hadj₁, ?_, shrinks_trans hshr hshr₁⟩
      · calc t = nextFrontierFrom G₁ rest t₁ := ht
          _ = nextFrontierFrom G rest t₁ := nextFrontierFrom_congr hadj₁ rest t₁
          _ = nextFrontierFrom G (node :: rest) temp := by rw [ht₁]; rfl
      · rw [successors_congr hadj₁] at hlv
        rw [hlv₁] at hlv
        exact hlv

theorem runWaves_spec :
    ∀ (fuel : Nat) (pl : List String) (lvl : Nat) (G : DiGraph)
      (mods : List Mod) (G' : DiGraph) (mods' : List Mod),
      runWaves fuel pl lvl G mods = some (G', mods') →
      G'.adj = G.adj ∧ List.Forall₂ Shrinks mods' mods ∧
      ∀ v,
        (∀ j, lastHit G fuel pl v = some j →
          getAssoc G'.levels v = some (lvl + j)) ∧
        (lastHit G fuel pl v = none →
          getAssoc G'.levels v = getAssoc G.levels v) := by
  intro fuel
  induction fuel with
  | zero =>
    intro pl lvl G mods G' mods' h
    cases pl with
    | nil =>
      rw [runWaves] at h
      simp only [Option.some.injEq, Prod.mk.injEq] at h
      obtain ⟨h1, h2⟩ := h
      subst h1
      subst h2
      refine ⟨rfl, shrinks_self mods, ?_⟩
      intro v
      exact ⟨fun j hj => (by rw [lastHit] at hj; cases hj), fun _ => rfl⟩
    | cons p t =>
      rw [runWaves] at h
      cases h
  | succ fuel ih =>
    intro pl lvl G mods G' mods' h
    cases pl with
    | nil =>
      rw [runWaves] at h
      simp only [Option.some.injEq, Prod.mk.injEq] at h
      obtain ⟨h1, h2⟩ := h
      subst h1
      subst h2
      refine ⟨rfl, shrinks_self mods, ?_⟩
      intro v
      exact ⟨fun j hj => (by rw [lastHit] at hj; cases hj), fun _ => rfl⟩
    | cons p t =>
      simp only [runWaves] at h
      cases hpn : processNodes lvl (p :: t) [] G mods with
      | none => rw [hpn] at h; cases h
      | some r =>
        obtain ⟨temp, G₁, mods₁⟩ := r
        rw [hpn] at h
        simp only at h
        rcases processNodes_spec lvl (p :: t) [] G mods temp G₁ mods₁ hpn with
          ⟨htemp, hadj₁, hlv₁, hshr₁⟩
        rcases ih temp (lvl + 1) G₁ mods₁ G' mods' h with ⟨hadj, hshr, hlev⟩
        refine ⟨hadj.trans hadj₁, shrinks_trans hshr hshr₁, ?_⟩
        intro v
        have htempNF : temp = nextFrontier G (p :: t) := htemp
        have hlh : lastHit G (fuel + 1) (p :: t) v =
            match lastHit G fuel (nextFrontier G (p :: t)) v with
            | some j => some (j + 1)
            | none =>
              if v ∈ nextFrontier G (p :: t) then some 0 else none := by
          rw [lastHit]
          all_goals simp
        rw [← htempNF] at hlh
        have hlhc : lastHit G₁ fuel temp v = lastHit G fuel temp v :=
          lastHit_congr hadj₁ fuel temp v
        have hG₁v : getAssoc G₁.levels v =
            if ∃ u ∈ p :: t, v ∈ successors G u then some lvl
            else getAssoc G.levels v := by
          rw [hlv₁]
          exact getAssoc_foldl_waveWrite G lvl (p :: t) G.levels v
        cases hrec : lastHit G fuel temp v with
        | some j =>
          rw [hrec] at hlh
          constructor
          · intro j' hj'
            rw [hlh] at hj'
            simp only [Option.some.injEq] at hj'
            subst hj'
            have := (hlev v).1 j (by rw [hlhc]; exact hrec)
            rw [this]
            congr 1
            omega
          · intro hnone
            rw [hlh] at hnone
            cases hnone
        | none =>
          rw [hrec] at hlh
          have hlev₂ := (hlev v).2 (by rw [hlhc]; exact hrec)
          constructor
          · intro j' hj'
            rw [hlh] at hj'
            by_cases hv : v ∈ temp
            · rw [if_pos hv] at hj'
              simp only [Option.some.injEq] at hj'
              subst hj'
              rw [hlev₂, hG₁v, if_pos (by
                rw [htempNF] at hv
                exact mem_nextFrontier.mp hv)]
              simp
            · rw [if_neg hv] at hj'
              cases hj'
          · intro hnone
            rw [hlh] at hnone
            by_cases hv : v ∈ temp
            · rw [if_pos hv] at hnone
              cases hnone
            · rw [hlev₂, hG₁v, if_neg (by
                intro hex
                rw [htempNF] at hv
                exact hv (mem_nextFrontier.mpr hex))]

/-! ### Walks: basic lemmas -/

theorem steps_cons {G : DiGraph} {u v w : String} {k : Nat}
    (h : v ∈ successors G u) (hs : Steps G v w k) : Steps G u w (k + 1) := by
  induction hs with
  | refl => exact Steps.snoc (Steps.refl u) h
  | snoc hs' hedge ih => exact Steps.snoc ih hedge

theorem steps_trans {G : DiGraph} {a b c : String} {j k : Nat}
    (h1 : Steps G a b j) (h2 : Steps G b c k) : Steps G a c (j + k) := by
  induction h2 with
  | refl => exact h1
  | snoc hs hedge ih => exact Steps.snoc ih hedge

theorem steps_ord {G : DiGraph} {ord : String → Nat} (ht : TopoOrd G ord)
    {u v : String} {k : Nat} (h : Steps G u v k) : ord u + k ≤ ord v := by
  induction h with
  | refl => simp
  | snoc hs hedge ih =>
    have := edge_ord ht hedge
    omega

theorem natSum_eq_zero_iff (l : List Nat) : l.sum = 0 ↔ ∀ x ∈ l, x = 0 := by
  induction l with
  | nil => simp
  | cons a t ih => simp [ih]

theorem in_degree_zero_iff {G : DiGraph} {v : String} :
    in_degree G v = 0 ↔ ∀ p ∈ G.adj, v ∉ p.2 := by
  unfold in_degree
  rw [natSum_eq_zero_iff]
  constructor
  · intro h p hp hv
    have hz : p.2.count v = 0 := h _ (List.mem_map.mpr ⟨p, hp, rfl⟩)
    exact (List.count_eq_zero.mp hz) hv
  · intro h x hx
    rcases List.mem_map.mp hx with ⟨p, hp, rfl⟩
    exact List.count_eq_zero.mpr (h p hp)

theorem in_degree_pos {G : DiGraph} {u v : String}
    (h : v ∈ successors G u) : in_degree G v ≠ 0 := by
  intro hzero
  unfold successors at h
  cases hg : getAssoc G.adj u with
  | none => rw [hg] at h; simp at h
  | some l =>
    rw [hg] at h
    exact (in_degree_zero_iff.mp hzero) (u, l) (getAssoc_mem hg) h

theorem getAssoc_of_mem_nodup {α : Type} :
    ∀ {l : List (String × α)} {k : String} {v : α},
      (l.map Prod.fst).Nodup → (k, v) ∈ l → getAssoc l k = some v := by
  intro l
  induction l with
  | nil => intro k v _ h; simp at h
  | cons p t ih =>
    intro k v hnd h
    obtain ⟨k', v'⟩ := p
    rcases List.mem_cons.mp h with he | ht
    · cases he
      rw [getAssoc, if_pos rfl]
    · have hk : k' ≠ k := by
        intro he
        subst he
        have : k' ∈ t.map Prod.fst := List.mem_map.mpr ⟨(k', v), ht, rfl⟩
        exact (List.nodup_cons.mp (by simpa using hnd)).1 this
      rw [getAssoc, if_neg hk]
      exact ih (List.nodup_cons.mp (by simpa using hnd)).2 ht

theorem exists_in_edge {G : DiGraph} (hWf : WfG G) {v : String}
    (h : in_degree G v ≠ 0) : ∃ u, v ∈ successors G u := by
  by_contra hno
  push_neg at hno
  refine h (in_degree_zero_iff.mpr ?_)
  intro p hp hv
  have : getAssoc G.adj p.1 = some p.2 :=
    getAssoc_of_mem_nodup hWf.1 (by rcases p with ⟨a, b⟩; exact hp)
  refine hno p.1 ?_
  unfold successors
  rw [this]
  exact hv

theorem steps_pos_in_degree {G : DiGraph} {r v : String} {k : Nat}
    (h : Steps G r v k) (hk : k ≠ 0) : in_degree G v ≠ 0 := by
  cases h with
  | refl => exact absurd rfl hk
  | snoc hs hedge => exact in_degree_pos hedge

theorem reachS_zero_iff {G : DiGraph} {v : String} :
    ReachS G v 0 ↔ in_degree G v = 0 := by
  constructor
  · rintro ⟨r, hr, hs⟩
    cases hs
    exact hr
  · intro h
    exact ⟨v, h, Steps.refl v⟩

theorem steps_first_edge {G : DiGraph} :
    ∀ {r v : String} {k : Nat}, Steps G r v (k + 1) →
      ∃ w, w ∈ successors G r ∧ Steps G w v k := by
  intro r v k
  induction k generalizing v with
  | zero =>
    intro h
    cases h with
    | snoc hs hedge =>
      cases hs with
      | refl => exact ⟨v, hedge, Steps.refl v⟩
  | succ k ih =>
    intro h
    cases h with
    | snoc hs hedge =>
      rcases ih hs with ⟨w, hw, hsw⟩
      exact ⟨w, hw, Steps.snoc hsw hedge⟩

theorem steps_pos_out_degree {G : DiGraph} {r v : String} {k : Nat}
    (h : Steps G r v k) (hk : k ≠ 0) : out_degree G r ≠ 0 := by
  rcases k with _ | k
  · exact absurd rfl hk
  · rcases steps_first_edge h with ⟨w, hw, _⟩
    intro hod
    unfold out_degree at hod
    rw [List.length_eq_zero.mp hod] at hw
    simp at hw

theorem head?_append_left {l l' : List String} {r : String}
    (h : l.head? = some r) : (l ++ l').head? = some r := by
  cases l with
  | nil => simp at h
  | cons a t => simpa using h

theorem chain_append_edge {G : DiGraph} :
    ∀ {l : List String} {u w : String}, isChain G l = true →
      l.getLast? = some u → w ∈ successors G u →
      isChain G (l ++ [w]) = true := by
  intro l
  induction l with
  | nil => intro u w _ hl; simp at hl
  | cons a t ih =>
    intro u w hc hl hedge
    cases t with
    | nil =>
      have ha : a = u := by simpa using hl
      subst ha
      show isChain G [a, w] = true
      simp [isChain, hedge]
    | cons b t' =>
      obtain ⟨he, hrest⟩ := isChain_cons_cons.mp hc
      rw [List.getLast?_cons_cons] at hl
      show isChain G (a :: ((b :: t') ++ [w])) = true
      have hch := ih hrest hl hedge
      rw [List.cons_append]
      exact isChain_cons_cons.mpr ⟨he, by rw [← List.cons_append]; exact hch⟩

theorem steps_to_chain {G : DiGraph} {r v : String} {k : Nat}
    (h : Steps G r v k) :
    ∃ l, isChain G l = true ∧ l.head? = some r ∧ l.getLast? = some v ∧
      l.length = k + 1 := by
  induction h with
  | refl => exact ⟨[_], rfl, rfl, rfl, rfl⟩
  | snoc hs hedge ih =>
    rcases ih with ⟨l, hc, hh, hl, hlen⟩
    refine ⟨l ++ [_], chain_append_edge hc hl hedge, head?_append_left hh,
      ?_, ?_⟩
    · simp
    · simp [hlen]

theorem chain_to_steps {G : DiGraph} :
    ∀ {l : List String} {a b : String}, isChain G l = true →
      l.head? = some a → l.getLast? = some b →
      Steps G a b (l.length - 1) := by
  intro l
  induction l with
  | nil => intro a b _ hh; simp at hh
  | cons x t ih =>
    intro a b hc hh hl
    have hx : a = x := by
      have h' : x = a := by simpa using hh
      exact h'.symm
    subst hx
    cases t with
    | nil =>
      have hb : b = a := by
        have h' : a = b := by simpa using hl
        exact h'.symm
      subst hb
      exact Steps.refl b
    | cons y t' =>
      obtain ⟨hedge, hrest⟩ := isChain_cons_cons.mp hc
      rw [List.getLast?_cons_cons] at hl
      have hs := ih hrest rfl hl
      have hres := steps_cons hedge hs
      simpa using hres

theorem nat_exists_max (P : Nat → Prop) :
    ∀ (bound : Nat), (∀ k, P k → k ≤ bound) → (∃ k, P k) →
      ∃ L, P L ∧ ∀ k, P k → k ≤ L := by
  intro bound
  induction bound with
  | zero =>
    intro hb hex
    rcases hex with ⟨k, hk⟩
    have hk0 : k = 0 := Nat.le_zero.mp (hb k hk)
    subst hk0
    exact ⟨0, hk, fun k' hk' => hb k' hk'⟩
  | succ bound ih =>
    intro hb hex
    by_cases hP : P (bound + 1)
    · exact ⟨bound + 1, hP, hb⟩
    · refine ih ?_ hex
      intro k hk
      have hkb := hb k hk
      by_cases hke : k = bound + 1
      · exact absurd (hke ▸ hk) hP
      · omega

theorem reachS_nonempty {G : DiGraph} {ord : String → Nat}
    (hWf : WfG G) (ht : TopoOrd G ord) :
    ∀ (n : Nat) (v : String), ord v ≤ n → ∃ k, ReachS G v k := by
  intro n
  induction n with
  | zero =>
    intro v hv
    by_cases hdeg : in_degree G v = 0
    · exact ⟨0, reachS_zero_iff.mpr hdeg⟩
    · rcases exists_in_edge hWf hdeg with ⟨u, hu⟩
      have := edge_ord ht hu
      omega
  | succ n ih =>
    intro v hv
    by_cases hdeg : in_degree G v = 0
    · exact ⟨0, reachS_zero_iff.mpr hdeg⟩
    · rcases exists_in_edge hWf hdeg with ⟨u, hu⟩
      have hord := edge_ord ht hu
      rcases ih u (by omega) with ⟨k, r, hr, hs⟩
      exact ⟨k + 1, r, hr, Steps.snoc hs hu⟩

theorem reachS_bounded {G : DiGraph} {ord : String → Nat}
    (ht : TopoOrd G ord) {v : String} {k : Nat} (h : ReachS G v k) :
    k ≤ ord v := by
  rcases h with ⟨r, _, hs⟩
  have := steps_ord ht hs
  omega

theorem exists_max_reach {G : DiGraph} {ord : String → Nat}
    (hWf : WfG G) (ht : TopoOrd G ord) (v : String) :
    ∃ L, ReachS G v L ∧ ∀ k, ReachS G v k → k ≤ L :=
  nat_exists_max (ReachS G v) (ord v) (fun _ hk => reachS_bounded ht hk)
    (reachS_nonempty hWf ht (ord v) v (Nat.le_refl _))

/-! ### Frontier sequence and the last-hit index -/

theorem frontierSeq_nil (G : DiGraph) : ∀ k, frontierSeq G [] k = [] := by
  intro k
  induction k with
  | zero => rfl
  | succ k ih =>
    show nextFrontier G (frontierSeq G [] k) = []
    rw [ih]
    rfl

theorem frontierSeq_shift (G : DiGraph) (pl : List String) :
    ∀ k, frontierSeq G (nextFrontier G pl) k = frontierSeq G pl (k + 1) := by
  intro k
  induction k with
  | zero => rfl
  | succ k ih =>
    show nextFrontier G (frontierSeq G (nextFrontier G pl) k) =
      frontierSeq G pl (k + 2)
    rw [ih]
    rfl

theorem mem_frontierSeq {G : DiGraph} (pl : List String) :
    ∀ (k : Nat) (v : String),
      v ∈ frontierSeq G pl k ↔ ∃ r ∈ pl, Steps G r v k := by
  intro k
  induction k with
  | zero =>
    intro v
    constructor
    · intro hv
      exact ⟨v, hv, Steps.refl v⟩
    · rintro ⟨r, hr, hs⟩
      cases hs
      exact hr
  | succ k ih =>
    intro v
    show v ∈ nextFrontier G (frontierSeq G pl k) ↔ _
    rw [mem_nextFrontier]
    constructor
    · rintro ⟨u, hu, hv⟩
      rcases (ih u).mp hu with ⟨r, hr, hs⟩
      exact ⟨r, hr, Steps.snoc hs hv⟩
    · rintro ⟨r, hr, hs⟩
      cases hs with
      | snoc hs' hedge => exact ⟨_, (ih _).mpr ⟨r, hr, hs'⟩, hedge⟩

theorem lastHit_mem {G : DiGraph} :
    ∀ (fuel : Nat) (pl : List String) (v : String) (j : Nat),
      lastHit G fuel pl v = some j → v ∈ frontierSeq G pl (j + 1) := by
  intro fuel
  induction fuel with
  | zero =>
    intro pl v j h
    cases pl with
    | nil => rw [lastHit] at h; cases h
    | cons p t => rw [lastHit] at h; cases h
  | succ fuel ih =>
    intro pl v j h
    cases pl with
    | nil => rw [lastHit] at h; cases h
    | cons p t =>
      simp only [lastHit] at h
      cases hrec : lastHit G fuel (nextFrontier G (p :: t)) v with
      | some j₀ =>
        rw [hrec] at h
        simp only [Option.some.injEq] at h
        subst h
        have hmem := ih _ v j₀ hrec
        rw [frontierSeq_shift] at hmem
        exact hmem
      | none =>
        rw [hrec] at h
        by_cases hv : v ∈ nextFrontier G (p :: t)
        · rw [if_pos hv] at h
          simp only [Option.some.injEq] at h
          subst h
          exact hv
        · rw [if_neg hv] at h
          cases h

theorem lastHit_ge {G : DiGraph} :
    ∀ (fuel : Nat) (pl : List String) (v : String) (k : Nat),
      v ∈ frontierSeq G pl (k + 1) → k < fuel →
      ∃ j, k ≤ j ∧ lastHit G fuel pl v = some j := by
  intro fuel
  induction fuel with
  | zero => intro pl v k _ hk; omega
  | succ fuel ih =>
    intro pl v k hv hk
    cases pl with
    | nil =>
      rw [frontierSeq_nil] at hv
      simp at hv
    | cons p t =>
      simp only [lastHit]
      rcases k with _ | k
      · have hvnf : v ∈ nextFrontier G (p :: t) := hv
        cases hrec : lastHit G fuel (nextFrontier G (p :: t)) v with
        | some j₀ => exact ⟨j₀ + 1, by omega, rfl⟩
        | none => exact ⟨0, Nat.le_refl 0, by simp [hvnf]⟩
      · have hv' : v ∈ frontierSeq G (nextFrontier G (p :: t)) (k + 1) := by
          rw [frontierSeq_shift]
          exact hv
        rcases ih _ v k hv' (by omega) with ⟨j₀, hj₀, hrec⟩
        exact ⟨j₀ + 1, by omega, by rw [hrec]⟩

theorem lastHit_none_not_mem {G : DiGraph} {fuel : Nat} {pl : List String}
    {v : String} (h : lastHit G fuel pl v = none) :
    ∀ k, k < fuel → v ∉ frontierSeq G pl (k + 1) := by
  intro k hk hv
  rcases lastHit_ge fuel pl v k hv hk with ⟨j, _, hj⟩
  rw [h] at hj
  cases hj

/-! ### The built graph: primitive operations -/

theorem getAssoc_append {α : Type} (l l' : List (String × α)) (k : String) :
    getAssoc (l ++ l') k =
      match getAssoc l k with
      | some v => some v
      | none => getAssoc l' k := by
  induction l with
  | nil => rfl
  | cons p t ih =>
    obtain ⟨k', v'⟩ := p
    by_cases hk : k' = k
    · simp [getAssoc, hk]
    · simp [getAssoc, hk, ih]

theorem getAssoc_isSome_of_mem_keys {α : Type} :
    ∀ {l : List (String × α)} {k : String},
      k ∈ l.map Prod.fst → (getAssoc l k).isSome := by
  intro l
  induction l with
  | nil => intro k h; simp at h
  | cons p t ih =>
    intro k h
    obtain ⟨k', v'⟩ := p
    by_cases hk : k' = k
    · simp [getAssoc, hk]
    · rw [getAssoc, if_neg hk]
      apply ih
      simp only [List.map_cons, List.mem_cons] at h
      rcases h with he | ht
      · exact absurd he.symm hk
      · exact ht

theorem mem_keys_of_getAssoc_isSome {α : Type} {l : List (String × α)}
    {k : String} (h : (getAssoc l k).isSome) : k ∈ l.map Prod.fst := by
  cases hg : getAssoc l k with
  | none => rw [hg] at h; simp at h
  | some v => exact List.mem_map.mpr ⟨(k, v), getAssoc_mem hg, rfl⟩

theorem ensureNode_levels (G : DiGraph) (n : String) :
    (ensureNode G n).levels = G.levels := by
  unfold ensureNode
  by_cases hn : n ∈ G.nodes
  · rw [if_pos hn]
  · rw [if_neg hn]

theorem add_edge_levels (G : DiGraph) (u v : String) :
    (add_edge G u v).levels = G.levels := by
  show (ensureNode (ensureNode G u) v).levels = G.levels
  rw [ensureNode_levels, ensureNode_levels]

theorem add_node_levels (G : DiGraph) (n : String) :
    (add_node G n).levels = setAssoc G.levels n 1 := by
  show setAssoc (ensureNode G n).levels n 1 = setAssoc G.levels n 1
  rw [ensureNode_levels]

theorem getAssoc_ensureNode (G : DiGraph) (n w : String) :
    getAssoc (ensureNode G n).adj w =
      match getAssoc G.adj w with
      | some s => some s
      | none => if w = n then some [] else none := by
  unfold ensureNode
  by_cases hn : n ∈ G.nodes
  · rw [if_pos hn]
    cases hg : getAssoc G.adj w with
    | some s => rfl
    | none =>
      by_cases hw : w = n
      · subst hw
        have hs := getAssoc_isSome_of_mem_keys (l := G.adj) hn
        rw [hg] at hs
        simp at hs
      · simp [hw]
  · rw [if_neg hn]
    show getAssoc (G.adj ++ [(n, [])]) w = _
    rw [getAssoc_append]
    cases hg : getAssoc G.adj w with
    | some s => rfl
    | none =>
      by_cases hw : n = w
      · subst hw
        rw [getAssoc, if_pos rfl, if_pos rfl]
      · rw [getAssoc, if_neg hw, if_neg (fun h => hw h.symm)]
        rfl

theorem successors_ensureNode (G : DiGraph) (n w : String) :
    successors (ensureNode G n) w = successors G w := by
  unfold successors
  rw [getAssoc_ensureNode]
  cases hg : getAssoc G.adj w with
  | some s => rfl
  | none =>
    by_cases hw : w = n
    · simp [hw]
    · simp [hw]

theorem mem_nodes_ensureNode {G : DiGraph} {n x : String} :
    x ∈ (ensureNode G n).nodes ↔ x ∈ G.nodes ∨ x = n := by
  unfold ensureNode
  by_cases hn : n ∈ G.nodes
  · rw [if_pos hn]
    constructor
    · exact Or.inl
    · rintro (h | h)
      · exact h
      · exact h ▸ hn
  · rw [if_neg hn]
    unfold DiGraph.nodes
    simp

theorem getAssoc_ensureNode_self (G : DiGraph) (n : String) :
    getAssoc (ensureNode G n).adj n = some (successors G n) := by
  rw [getAssoc_ensureNode]
  cases hg : getAssoc G.adj n with
  | some s => simp [successors, hg]
  | none => simp [successors, hg]

theorem appendSucc_keys (u v : String) :
    ∀ (adj : List (String × List String)),
      (appendSucc adj u v).map Prod.fst = adj.map Prod.fst := by
  intro adj
  induction adj with
  | nil => rfl
  | cons p t ih =>
    obtain ⟨k, s⟩ := p
    by_cases hk : k = u
    · simp [appendSucc, hk]
    · simp [appendSucc, hk, ih]

theorem getAssoc_appendSucc (u v : String) :
    ∀ (adj : List (String × List String)) (w : String),
      getAssoc (appendSucc adj u v) w =
        if w = u then
          (getAssoc adj u).map (fun s => if v ∈ s then s else s ++ [v])
        else getAssoc adj w := by
  intro adj
  induction adj with
  | nil =>
    intro w
    by_cases hw : w = u <;> simp [appendSucc, getAssoc, hw]
  | cons p t ih =>
    intro w
    obtain ⟨k, s⟩ := p
    simp only [appendSucc]
    by_cases hk : k = u
    · rw [if_pos hk]
      subst hk
      by_cases hw : w = k
      · subst hw
        simp [getAssoc]
      · simp [getAssoc, hw, Ne.symm hw]
    · rw [if_neg hk]
      by_cases hw : w = k
      · subst hw
        simp [getAssoc, hk]
      · have hkw : ¬ k = w := fun h => hw h.symm
        simp only [getAssoc, if_neg hkw, if_neg hk]
        rw [ih w]

theorem successors_add_edge (G : DiGraph) (u v w : String) :
    successors (add_edge G u v) w =
      if w = u then
        (if v ∈ successors G u then successors G u else successors G u ++ [v])
      else successors G w := by
  have hmain : successors (add_edge G u v) w =
      (getAssoc (appendSucc (ensureNode (ensureNode G u) v).adj u v) w).getD
        [] := rfl
  rw [hmain, getAssoc_appendSucc]
  by_cases hw : w = u
  · rw [if_pos hw, if_pos hw]
    have h1 : getAssoc (ensureNode (ensureNode G u) v).adj u =
        some (successors G u) := by
      rw [getAssoc_ensureNode, getAssoc_ensureNode_self]
    rw [h1]
    rfl
  · rw [if_neg hw, if_neg hw]
    have h2 : (getAssoc (ensureNode (ensureNode G u) v).adj w).getD [] =
        successors (ensureNode (ensureNode G u) v) w := rfl
    rw [h2, successors_ensureNode, successors_ensureNode]

theorem mem_successors_add_edge {G : DiGraph} {u v w x : String} :
    x ∈ successors (add_edge G u v) w ↔
      x ∈ successors G w ∨ (w = u ∧ x = v) := by
  rw [successors_add_edge]
  by_cases hw : w = u
  · subst hw
    rw [if_pos rfl]
    by_cases hv : v ∈ successors G w
    · rw [if_pos hv]
      constructor
      · exact fun h => Or.inl h
      · rintro (h | ⟨_, h⟩)
        · exact h
        · exact h ▸ hv
    · rw [if_neg hv]
      rw [List.mem_append]
      constructor
      · rintro (h | h)
        · exact Or.inl h
        · exact Or.inr ⟨rfl, by simpa using h⟩
      · rintro (h | ⟨_, h⟩)
        · exact Or.inl h
        · simp [h]
  · rw [if_neg hw]
    constructor
    · exact fun h => Or.inl h
    · rintro (h | ⟨h, _⟩)
      · exact h
      · exact absurd h hw

theorem mem_nodes_add_edge {G : DiGraph} {u v x : String} :
    x ∈ (add_edge G u v).nodes ↔ x ∈ G.nodes ∨ x = u ∨ x = v := by
  have hmain : (add_edge G u v).nodes =
      (appendSucc (ensureNode (ensureNode G u) v).adj u v).map Prod.fst :=
    rfl
  rw [hmain, appendSucc_keys]
  show x ∈ (ensureNode (ensureNode G u) v).nodes ↔ _
  rw [mem_nodes_ensureNode, mem_nodes_ensureNode]
  tauto

theorem mem_nodes_add_node {G : DiGraph} {n x : String} :
    x ∈ (add_node G n).nodes ↔ x ∈ G.nodes ∨ x = n := by
  unfold add_node DiGraph.nodes
  exact mem_nodes_ensureNode

theorem successors_add_node (G : DiGraph) (n w : String) :
    successors (add_node G n) w = successors G w := by
  show successors (ensureNode G n) w = successors G w
  exact successors_ensureNode G n w

/-! ### The built graph: well-formedness and characterization -/

theorem appendSucc_entry_mem (u v : String) :
    ∀ (adj : List (String × List String)), ∀ p' ∈ appendSucc adj u v,
      ∀ x ∈ p'.2, (∃ p ∈ adj, x ∈ p.2) ∨ x = v := by
  intro adj
  induction adj with
  | nil => intro p' hp'; simp [appendSucc] at hp'
  | cons q t ih =>
    intro p' hp' x hx
    obtain ⟨k, s⟩ := q
    simp only [appendSucc] at hp'
    by_cases hk : k = u
    · rw [if_pos hk] at hp'
      rcases List.mem_cons.mp hp' with he | ht
      · subst he
        simp only at hx
        by_cases hv : v ∈ s
        · rw [if_pos hv] at hx
          exact Or.inl ⟨(k, s), List.mem_cons_self _ _, hx⟩
        · rw [if_neg hv] at hx
          rcases List.mem_append.mp hx with h | h
          · exact Or.inl ⟨(k, s), List.mem_cons_self _ _, h⟩
          · exact Or.inr (by simpa using h)
      · exact Or.inl ⟨p', List.mem_cons_of_mem _ ht, hx⟩
    · rw [if_neg hk] at hp'
      rcases List.mem_cons.mp hp' with he | ht
      · subst he
        exact Or.inl ⟨(k, s), List.mem_cons_self _ _, hx⟩
      · rcases ih p' ht x hx with ⟨p, hp, hxp⟩ | hv
        · exact Or.inl ⟨p, List.mem_cons_of_mem _ hp, hxp⟩
        · exact Or.inr hv

theorem wf_ensureNode {G : DiGraph} (hWf : WfG G) (n : String) :
    WfG (ensureNode G n) := by
  unfold ensureNode
  by_cases hn : n ∈ G.nodes
  · rw [if_pos hn]
    exact hWf
  · rw [if_neg hn]
    constructor
    · show ((G.adj ++ [(n, [])]).map Prod.fst).Nodup
      rw [List.map_append]
      refine List.Nodup.append hWf.1 (by simp) ?_
      intro x hx hx'
      simp at hx'
      subst hx'
      exact hn hx
    · intro p hp x hx
      show x ∈ (G.adj ++ [(n, [])]).map Prod.fst
      rcases List.mem_append.mp hp with h | h
      · have := hWf.2 p h x hx
        rw [List.map_append]
        exact List.mem_append.mpr (Or.inl this)
      · simp at h
        rw [h] at hx
        simp at hx

theorem wf_add_node {G : DiGraph} (hWf : WfG G) (n : String) :
    WfG (add_node G n) :=
  wf_ensureNode hWf n

theorem wf_add_edge {G : DiGraph} (hWf : WfG G) (u v : String) :
    WfG (add_edge G u v) := by
  have hWf' : WfG (ensureNode (ensureNode G u) v) :=
    wf_ensureNode (wf_ensureNode hWf u) v
  constructor
  · show ((appendSucc (ensureNode (ensureNode G u) v).adj u v).map
      Prod.fst).Nodup
    rw [appendSucc_keys]
    exact hWf'.1
  · intro p hp x hx
    show x ∈ (appendSucc (ensureNode (ensureNode G u) v).adj u v).map Prod.fst
    rw [appendSucc_keys]
    rcases appendSucc_entry_mem u v _ p hp x hx with ⟨q, hq, hxq⟩ | hv
    · exact hWf'.2 q hq x hxq
    · subst hv
      have : x ∈ (ensureNode (ensureNode G u) x).nodes :=
        mem_nodes_ensureNode.mpr (Or.inr rfl)
      exact this

theorem wf_foldl_add_node :
    ∀ (names : List String) (G : DiGraph), WfG G →
      WfG (names.foldl add_node G) := by
  intro names
  induction names with
  | nil => intro G h; exact h
  | cons n ns ih => intro G h; exact ih _ (wf_add_node h n)

theorem wf_foldl_deps :
    ∀ (deps : List String) (u : String) (G : DiGraph), WfG G →
      WfG (deps.foldl (fun G d => add_edge G u d) G) := by
  intro deps
  induction deps with
  | nil => intro u G h; exact h
  | cons d ds ih => intro u G h; exact ih u _ (wf_add_edge h u d)

theorem wf_edgesFold :
    ∀ (mods : List Mod) (G : DiGraph), WfG G →
      WfG (mods.foldl (fun G m =>
        m.dependents.foldl (fun G d => add_edge G m.name d) G) G) := by
  intro mods
  induction mods with
  | nil => intro G h; exact h
  | cons m ms ih => intro G h; exact ih _ (wf_foldl_deps m.dependents m.name G h)

theorem buildGraph_wf (nl : List String) (mods : List Mod) :
    WfG (buildGraph nl mods) := by
  unfold buildGraph
  refine wf_edgesFold mods _ (wf_foldl_add_node nl _ ?_)
  constructor
  · simp [DiGraph.nodes]
  · intro p hp
    simp at hp

theorem levels_foldl_add_node :
    ∀ (names : List String) (G : DiGraph) (v : String),
      getAssoc ((names.foldl add_node G).levels) v =
        if v ∈ names then some 1 else getAssoc G.levels v := by
  intro names
  induction names with
  | nil => intro G v; simp
  | cons n ns ih =>
    intro G v
    rw [List.foldl_cons, ih]
    by_cases hv : v ∈ ns
    · rw [if_pos hv, if_pos (List.mem_cons_of_mem n hv)]
    · rw [if_neg hv, add_node_levels]
      by_cases hvn : v = n
      · subst hvn
        rw [getAssoc_setAssoc_self, if_pos (List.mem_cons_self v ns)]
      · rw [getAssoc_setAssoc_ne _ _ _ _ (fun h => hvn h.symm),
          if_neg (by
            intro h
            rcases List.mem_cons.mp h with h | h
            · exact hvn h
            · exact hv h)]

theorem levels_foldl_deps :
    ∀ (deps : List String) (u : String) (G : DiGraph),
      (deps.foldl (fun G d => add_edge G u d) G).levels = G.levels := by
  intro deps
  induction deps with
  | nil => intro u G; rfl
  | cons d ds ih =>
    intro u G
    rw [List.foldl_cons, ih, add_edge_levels]

theorem levels_edgesFold :
    ∀ (mods : List Mod) (G : DiGraph),
      (mods.foldl (fun G m =>
        m.dependents.foldl (fun G d => add_edge G m.name d) G) G).levels =
      G.levels := by
  intro mods
  induction mods with
  | nil => intro G; rfl
  | cons m ms ih =>
    intro G
    rw [List.foldl_cons, ih, levels_foldl_deps]

theorem buildGraph_levels (nl : List String) (mods : List Mod) (v : String) :
    getAssoc (buildGraph nl mods).levels v =
      if v ∈ nl then some 1 else none := by
  unfold buildGraph
  rw [levels_edgesFold, levels_foldl_add_node]
  rfl

theorem successors_foldl_add_node :
    ∀ (names : List String) (G : DiGraph) (u : String),
      successors (names.foldl add_node G) u = successors G u := by
  intro names
  induction names with
  | nil => intro G u; rfl
  | cons n ns ih =>
    intro G u
    rw [List.foldl_cons, ih, successors_add_node]

theorem mem_successors_foldl_deps :
    ∀ (deps : List String) (nm : String) (G : DiGraph) (u x : String),
      x ∈ successors (deps.foldl (fun G d => add_edge G nm d) G) u ↔
        x ∈ successors G u ∨ (u = nm ∧ x ∈ deps) := by
  intro deps
  induction deps with
  | nil => intro nm G u x; simp
  | cons d ds ih =>
    intro nm G u x
    rw [List.foldl_cons, ih, mem_successors_add_edge]
    simp only [List.mem_cons]
    tauto

theorem mem_successors_edgesFold :
    ∀ (mods : List Mod) (G : DiGraph) (u x : String),
      x ∈ successors (mods.foldl (fun G m =>
        m.dependents.foldl (fun G d => add_edge G m.name d) G) G) u ↔
        x ∈ successors G u ∨ ∃ m ∈ mods, m.name = u ∧ x ∈ m.dependents := by
  intro mods
  induction mods with
  | nil => intro G u x; simp
  | cons m ms ih =>
    intro G u x
    rw [List.foldl_cons, ih, mem_successors_foldl_deps]
    simp only [List.mem_cons]
    constructor
    · rintro ((h | ⟨h1, h2⟩) | ⟨m', hm', h1, h2⟩)
      · exact Or.inl h
      · exact Or.inr ⟨m, Or.inl rfl, h1.symm, h2⟩
      · exact Or.inr ⟨m', Or.inr hm', h1, h2⟩
    · rintro (h | ⟨m', hm' | hm', h1, h2⟩)
      · exact Or.inl (Or.inl h)
      · subst hm'
        exact Or.inl (Or.inr ⟨h1.symm, h2⟩)
      · exact Or.inr ⟨m', hm', h1, h2⟩

theorem mem_successors_buildGraph (nl : List String) (mods : List Mod)
    (u x : String) :
    x ∈ successors (buildGraph nl mods) u ↔
      ∃ m ∈ mods, m.name = u ∧ x ∈ m.dependents := by
  unfold buildGraph
  rw [mem_successors_edgesFold, successors_foldl_add_node]
  simp [successors, getAssoc]

theorem mem_nodes_foldl_add_node :
    ∀ (names : List String) (G : DiGraph) (x : String),
      x ∈ (names.foldl add_node G).nodes ↔ x ∈ G.nodes ∨ x ∈ names := by
  intro names
  induction names with
  | nil => intro G x; simp
  | cons n ns ih =>
    intro G x
    rw [List.foldl_cons, ih, mem_nodes_add_node]
    simp only [List.mem_cons]
    tauto

theorem mem_nodes_foldl_deps :
    ∀ (deps : List String) (nm : String) (G : DiGraph) (x : String),
      x ∈ (deps.foldl (fun G d => add_edge G nm d) G).nodes ↔
        x ∈ G.nodes ∨ ∃ d ∈ deps, x = nm ∨ x = d := by
  intro deps
  induction deps with
  | nil => intro nm G x; simp
  | cons d ds ih =>
    intro nm G x
    rw [List.foldl_cons, ih, mem_nodes_add_edge]
    simp only [List.mem_cons]
    constructor
    · rintro ((h | h | h) | ⟨d', hd', h⟩)
      · exact Or.inl h
      · exact Or.inr ⟨d, Or.inl rfl, Or.inl h⟩
      · exact Or.inr ⟨d, Or.inl rfl, Or.inr h⟩
      · exact Or.inr ⟨d', Or.inr hd', h⟩
    · rintro (h | ⟨d', hd' | hd', h⟩)
      · exact Or.inl (Or.inl h)
      · subst hd'
        rcases h with h | h
        · exact Or.inl (Or.inr (Or.inl h))
        · exact Or.inl (Or.inr (Or.inr h))
      · exact Or.inr ⟨d', hd', h⟩

theorem mem_nodes_edgesFold :
    ∀ (mods : List Mod) (G : DiGraph) (x : String),
      x ∈ (mods.foldl (fun G m =>
        m.dependents.foldl (fun G d => add_edge G m.name d) G) G).nodes ↔
        x ∈ G.nodes ∨ ∃ m ∈ mods, ∃ d ∈ m.dependents,
          x = m.name ∨ x = d := by
  intro mods
  induction mods with
  | nil => intro G x; simp
  | cons m ms ih =>
    intro G x
    rw [List.foldl_cons, ih, mem_nodes_foldl_deps]
    simp only [List.mem_cons]
    constructor
    · rintro ((h | ⟨d, hd, h⟩) | ⟨m', hm', hrest⟩)
      · exact Or.inl h
      · exact Or.inr ⟨m, Or.inl rfl, d, hd, h⟩
      · exact Or.inr ⟨m', Or.inr hm', hrest⟩
    · rintro (h | ⟨m', hm' | hm', hrest⟩)
      · exact Or.inl (Or.inl h)
      · subst hm'
        exact Or.inl (Or.inr hrest)
      · exact Or.inr ⟨m', hm', hrest⟩

theorem mem_nodes_buildGraph (nl : List String) (mods : List Mod)
    (x : String) :
    x ∈ (buildGraph nl mods).nodes ↔
      x ∈ nl ∨ ∃ m ∈ mods, ∃ d ∈ m.dependents, x = m.name ∨ x = d := by
  unfold buildGraph
  rw [mem_nodes_edgesFold, mem_nodes_foldl_add_node]
  simp [DiGraph.nodes]

theorem mem_depsOf_iff {mods : List Mod}
    (hnd : (mods.map Mod.name).Nodup) (u x : String) :
    x ∈ depsOf mods u ↔ ∃ m ∈ mods, m.name = u ∧ x ∈ m.dependents := by
  induction mods with
  | nil => simp [depsOf]
  | cons m ms ih =>
    simp only [List.map_cons, List.nodup_cons] at hnd
    by_cases hm : m.name = u
    · rw [depsOf_cons_pos hm]
      constructor
      · intro hx
        exact ⟨m, List.mem_cons_self m ms, hm, hx⟩
      · rintro ⟨m', hm', hname, hx⟩
        rcases List.mem_cons.mp hm' with he | ht
        · subst he
          exact hx
        · exfalso
          refine hnd.1 ?_
          rw [hm, ← hname]
          exact List.mem_map.mpr ⟨m', ht, rfl⟩
    · rw [depsOf_cons_neg hm, ih hnd.2]
      constructor
      · rintro ⟨m', hm', hname, hx⟩
        exact ⟨m', List.mem_cons_of_mem m hm', hname, hx⟩
      · rintro ⟨m', hm', hname, hx⟩
        rcases List.mem_cons.mp hm' with he | ht
        · subst he
          exact absurd hname hm
        · exact ⟨m', ht, hname, hx⟩

theorem mem_successors_buildGraph_depsOf {nl : List String} {mods : List Mod}
    (hnd : (mods.map Mod.name).Nodup) (u x : String) :
    x ∈ successors (buildGraph nl mods) u ↔ x ∈ depsOf mods u := by
  rw [mem_successors_buildGraph, mem_depsOf_iff hnd]

/-! ### Totality of the run on acyclic inputs -/

theorem simplePathsAux_congr {G₁ G₂ : DiGraph} (h : G₁.adj = G₂.adj)
    (dest : String) :
    ∀ (fuel : Nat) (u : String) (visited : List String),
      simplePathsAux G₁ dest fuel u visited =
        simplePathsAux G₂ dest fuel u visited := by
  intro fuel
  induction fuel with
  | zero => intro u visited; rfl
  | succ fuel ih =>
    intro u visited
    rw [simplePathsAux, simplePathsAux, successors_congr h]
    by_cases hud : u = dest
    · rw [if_pos hud, if_pos hud]
    · rw [if_neg hud, if_neg hud]
      congr 1
      funext w
      rw [ih]

theorem all_simple_paths_congr {G₁ G₂ : DiGraph} (h : G₁.adj = G₂.adj)
    (s d : String) :
    all_simple_paths G₁ s d = all_simple_paths G₂ s d := by
  unfold all_simple_paths
  rw [simplePathsAux_congr h]
  unfold DiGraph.nodes
  rw [h]

theorem frontierSeq_congr {G₁ G₂ : DiGraph} (h : G₁.adj = G₂.adj)
    (pl : List String) :
    ∀ k, frontierSeq G₁ pl k = frontierSeq G₂ pl k := by
  intro k
  induction k with
  | zero => rfl
  | succ k ih =>
    show nextFrontier G₁ (frontierSeq G₁ pl k) = _
    rw [ih, nextFrontier_congr h]
    rfl

theorem processSuccessors_total (node : String) (succs : List String)
    (lvl : Nat) :
    ∀ (rest temp : List String) (G : DiGraph) (mods : List Mod),
      (∀ s ∈ rest, all_simple_paths G node s ≠ []) →
      ∃ t G' mods',
        processSuccessors node succs lvl rest temp G mods =
          some (t, G', mods') := by
  intro rest
  induction rest with
  | nil => intro temp G mods _; exact ⟨temp, G, mods, rfl⟩
  | cons s srest ih =>
    intro temp G mods h
    rcases removeModules_isSome (G := G) (s := node) (d := s) succs mods
      (h s (List.mem_cons_self s srest)) with ⟨mods₁, hrm⟩
    rw [processSuccessors, hrm]
    refine ih (pushNew temp s) ⟨G.adj, setAssoc G.levels s lvl⟩ mods₁ ?_
    intro s' hs'
    have hcongr : all_simple_paths
        (⟨G.adj, setAssoc G.levels s lvl⟩ : DiGraph) node s' =
        all_simple_paths G node s' :=
      @all_simple_paths_congr ⟨G.adj, setAssoc G.levels s lvl⟩ G rfl node s'
    rw [hcongr]
    exact h s' (List.mem_cons_of_mem s hs')

theorem processNodes_total (lvl : Nat) :
    ∀ (pl temp : List String) (G : DiGraph) (mods : List Mod),
      (∀ u s, s ∈ successors G u → all_simple_paths G u s ≠ []) →
      ∃ t G' mods',
        processNodes lvl pl temp G mods = some (t, G', mods') ∧
        G'.adj = G.adj := by
  intro pl
  induction pl with
  | nil => intro temp G mods _; exact ⟨temp, G, mods, rfl, rfl⟩
  | cons node rest ih =>
    intro temp G mods h
    rcases processSuccessors_total node (successors G node) lvl
      (successors G node) temp G mods (fun s hs => h node s hs) with
      ⟨t₁, G₁, mods₁, hps⟩
    rcases processSuccessors_spec node (successors G node) lvl
      (successors G node) temp G mods t₁ G₁ mods₁ hps with
      ⟨_, hadj₁, _, _⟩
    rcases ih t₁ G₁ mods₁ (by
      intro u s hs
      rw [successors_congr hadj₁] at hs
      rw [all_simple_paths_congr hadj₁]
      exact h u s hs) with ⟨t, G', mods', hpn, hadj⟩
    refine ⟨t, G', mods', ?_, hadj.trans hadj₁⟩
    rw [processNodes, hps]
    exact hpn

theorem runWaves_total :
    ∀ (fuel : Nat) (pl : List String) (lvl : Nat) (G : DiGraph)
      (mods : List Mod),
      (∀ u s, s ∈ successors G u → all_simple_paths G u s ≠ []) →
      frontierSeq G pl fuel = [] →
      ∃ G' mods', runWaves fuel pl lvl G mods = some (G', mods') := by
  intro fuel
  induction fuel with
  | zero =>
    intro pl lvl G mods _ hempty
    have : pl = [] := hempty
    subst this
    exact ⟨G, mods, rfl⟩
  | succ fuel ih =>
    intro pl lvl G mods h hempty
    cases pl with
    | nil => exact ⟨G, mods, rfl⟩
    | cons p t =>
      rcases processNodes_total lvl (p :: t) [] G mods h with
        ⟨temp, G₁, mods₁, hpn, hadj₁⟩
      rcases processNodes_spec lvl (p :: t) [] G mods temp G₁ mods₁ hpn with
        ⟨htemp, _, _, _⟩
      have htempNF : temp = nextFrontier G (p :: t) := htemp
      rcases ih temp (lvl + 1) G₁ mods₁ (by
          intro u s hs
          rw [successors_congr hadj₁] at hs
          rw [all_simple_paths_congr hadj₁]
          exact h u s hs) (by
          rw [frontierSeq_congr hadj₁, htempNF, frontierSeq_shift]
          exact hempty) with ⟨G', mods', hrw⟩
      refine ⟨G', mods', ?_⟩
      simp only [runWaves]
      rw [hpn]
      exact hrw

theorem all_simple_paths_ne_nil_of_edge {G : DiGraph} {ord : String → Nat}
    (hWf : WfG G) (ht : TopoOrd G ord) :
    ∀ u s, s ∈ successors G u → all_simple_paths G u s ≠ [] := by
  intro u s h hnil
  have hmem := mem_all_simple_paths_edge hWf h (edge_ne ht h)
  rw [hnil] at hmem
  simp at hmem

theorem frontierSeq_roots_empty {G : DiGraph} {ord : String → Nat}
    (hWf : WfG G) (ht : TopoOrd G ord) (k : Nat)
    (hk : G.nodes.length ≤ k) : frontierSeq G (rootsOf G) k = [] := by
  rw [List.eq_nil_iff_forall_not_mem]
  intro v hv
  rcases (mem_frontierSeq (rootsOf G) k v).mp hv with ⟨r, hr, hs⟩
  have hrn : r ∈ G.nodes := List.mem_of_mem_filter hr
  rcases steps_to_chain hs with ⟨l, hc, hh, hl, hlen⟩
  have hnd := chain_nodup_of_topo ht hc
  have hble : l.length ≤ G.nodes.length := by
    refine chain_length_le hWf hc hnd ?_
    intro x hm
    rw [hh] at hm
    have hx : x = r := by simpa using hm.symm
    rw [hx]
    exact hrn
  omega

/-! ### The write-back -/

theorem writeLevels_spec :
    ∀ (mods out : List Mod) (G : DiGraph), writeLevels G mods = some out →
      List.Forall₂ (fun m' m => m'.name = m.name ∧ m'.version = m.version ∧
        m'.release = m.release ∧ m'.dependents = m.dependents ∧
        getAssoc G.levels m.name = some m'.level) out mods := by
  intro mods
  induction mods with
  | nil =>
    intro out G h
    simp only [writeLevels, Option.some.injEq] at h
    subst h
    exact List.Forall₂.nil
  | cons m rest ih =>
    intro out G h
    rw [writeLevels] at h
    cases hg : getAssoc G.levels m.name with
    | none => rw [hg] at h; cases h
    | some l =>
      rw [hg] at h
      cases hw : writeLevels G rest with
      | none => rw [hw] at h; cases h
      | some rest' =>
        rw [hw] at h
        simp only [Option.some.injEq] at h
        subst h
        exact List.Forall₂.cons ⟨rfl, rfl, rfl, rfl, hg⟩ (ih rest' G hw)

theorem writeLevels_total :
    ∀ (mods : List Mod) (G : DiGraph),
      (∀ m ∈ mods, (getAssoc G.levels m.name).isSome) →
      ∃ out, writeLevels G mods = some out := by
  intro mods
  induction mods with
  | nil => intro G _; exact ⟨[], rfl⟩
  | cons m rest ih =>
    intro G h
    rcases ih G (fun m' hm' => h m' (List.mem_cons_of_mem m hm')) with
      ⟨rest', hrest⟩
    cases hg : getAssoc G.levels m.name with
    | none =>
      have := h m (List.mem_cons_self m rest)
      rw [hg] at this
      simp at this
    | some l =>
      refine ⟨{ m with level := l } :: rest', ?_⟩
      rw [writeLevels, hg, hrest]

theorem shrinks_names {mods' mods : List Mod}
    (h : List.Forall₂ Shrinks mods' mods) :
    mods'.map Mod.name = mods.map Mod.name := by
  induction h with
  | nil => rfl
  | cons hm t ih =>
    simp only [List.map_cons, ih]
    rw [hm.1]

theorem shrinks_field_maps {mods' mods : List Mod}
    (h : List.Forall₂ Shrinks mods' mods) :
    mods'.map Mod.version = mods.map Mod.version ∧
    mods'.map Mod.release = mods.map Mod.release := by
  induction h with
  | nil => exact ⟨rfl, rfl⟩
  | cons hm t ih =>
    exact ⟨by simp only [List.map_cons]; rw [hm.2.1, ih.1],
      by simp only [List.map_cons]; rw [hm.2.2.1, ih.2]⟩

theorem writeLevels_names {mods out : List Mod} {G : DiGraph}
    (h : writeLevels G mods = some out) :
    out.map Mod.name = mods.map Mod.name ∧
    out.map Mod.version = mods.map Mod.version ∧
    out.map Mod.release = mods.map Mod.release := by
  have hs := writeLevels_spec mods out G h
  clear h
  induction hs with
  | nil => exact ⟨rfl, rfl, rfl⟩
  | cons hm t ih =>
    obtain ⟨h1, h2, h3, _, _⟩ := hm
    exact ⟨by simp only [List.map_cons]; rw [h1, ih.1],
      by simp only [List.map_cons]; rw [h2, ih.2.1],
      by simp only [List.map_cons]; rw [h3, ih.2.2]⟩

theorem writeLevels_levelOf :
    ∀ {mods out : List Mod} {G : DiGraph} {u : String},
      writeLevels G mods = some out → (∃ m ∈ mods, m.name = u) →
      levelOf out u = getAssoc G.levels u := by
  intro mods
  induction mods with
  | nil =>
    intro out G u _ hex
    rcases hex with ⟨m, hm, _⟩
    simp at hm
  | cons m rest ih =>
    intro out G u h hex
    rw [writeLevels] at h
    cases hg : getAssoc G.levels m.name with
    | none => rw [hg] at h; cases h
    | some l =>
      rw [hg] at h
      cases hw : writeLevels G rest with
      | none => rw [hw] at h; cases h
      | some rest' =>
        rw [hw] at h
        simp only [Option.some.injEq] at h
        subst h
        by_cases hu : m.name = u
        · rw [levelOf_cons_pos (by simpa using hu)]
          rw [← hu, hg]
        · rw [levelOf_cons_neg (by simpa using hu)]
          refine ih hw ?_
          rcases hex with ⟨m', hm', hname⟩
          rcases List.mem_cons.mp hm' with he | ht
          · subst he
            exact absurd hname hu
          · exact ⟨m', ht, hname⟩

theorem writeLevels_depsOf :
    ∀ {mods out : List Mod} {G : DiGraph},
      writeLevels G mods = some out → ∀ u, depsOf out u = depsOf mods u := by
  intro mods
  induction mods with
  | nil =>
    intro out G h u
    simp only [writeLevels, Option.some.injEq] at h
    subst h
    rfl
  | cons m rest ih =>
    intro out G h u
    rw [writeLevels] at h
    cases hg : getAssoc G.levels m.name with
    | none => rw [hg] at h; cases h
    | some l =>
      rw [hg] at h
      cases hw : writeLevels G rest with
      | none => rw [hw] at h; cases h
      | some rest' =>
        rw [hw] at h
        simp only [Option.some.injEq] at h
        subst h
        by_cases hu : m.name = u
        · rw [depsOf_cons_pos (by simpa using hu), depsOf_cons_pos hu]
        · rw [depsOf_cons_neg (by simpa using hu), depsOf_cons_neg hu]
          exact ih hw u

/-! ### Putting the run together -/

theorem mem_rootsOf_iff {G : DiGraph} {r : String} :
    r ∈ rootsOf G ↔
      r ∈ G.nodes ∧ in_degree G r = 0 ∧ out_degree G r ≠ 0 := by
  unfold rootsOf
  rw [List.mem_filter]
  simp [and_assoc]

theorem reachS_of_frontier_roots {G : DiGraph} {v : String} {k : Nat}
    (h : v ∈ frontierSeq G (rootsOf G) k) : ReachS G v k := by
  rcases (mem_frontierSeq (rootsOf G) k v).mp h with ⟨r, hr, hs⟩
  exact ⟨r, (mem_rootsOf_iff.mp hr).2.1, hs⟩

theorem frontier_roots_of_reachS {G : DiGraph} {v : String} {k : Nat}
    (hk : k ≠ 0) (h : ReachS G v k) :
    v ∈ frontierSeq G (rootsOf G) k := by
  rcases h with ⟨r, hr0, hs⟩
  refine (mem_frontierSeq (rootsOf G) k v).mpr ⟨r, ?_, hs⟩
  have hout : out_degree G r ≠ 0 := steps_pos_out_degree hs hk
  have hrn : r ∈ G.nodes := by
    rcases k with _ | k
    · exact absurd rfl hk
    · rcases steps_first_edge hs with ⟨w, hw, _⟩
      exact mem_nodes_of_successors_ne hw
  exact mem_rootsOf_iff.mpr ⟨hrn, hr0, hout⟩

theorem steps_le_nodes {G : DiGraph} {ord : String → Nat} (hWf : WfG G)
    (ht : TopoOrd G ord) {r v : String} {k : Nat} (hs : Steps G r v k)
    (hrn : r ∈ G.nodes) : k + 1 ≤ G.nodes.length := by
  rcases steps_to_chain hs with ⟨l, hc, hh, hl, hlen⟩
  have hnd := chain_nodup_of_topo ht hc
  have hble : l.length ≤ G.nodes.length := by
    refine chain_length_le hWf hc hnd ?_
    intro x hm
    rw [hh] at hm
    have hx : x = r := by simpa using hm.symm
    rw [hx]
    exact hrn
  omega

theorem calculateLevels_total {nl : List String} {mods : List Mod}
    {ord : String → Nat} (ht : TopoOrd (buildGraph nl mods) ord)
    (hnames : ∀ m ∈ mods, m.name ∈ nl) :
    ∃ out, calculateLevels nl mods = some out := by
  have hWf := buildGraph_wf nl mods
  rcases runWaves_total ((buildGraph nl mods).nodes.length + 1)
    (rootsOf (buildGraph nl mods)) 2 (buildGraph nl mods) mods
    (all_simple_paths_ne_nil_of_edge hWf ht)
    (frontierSeq_roots_empty hWf ht _ (by omega)) with ⟨G', mods', hrw⟩
  rcases runWaves_spec _ _ _ _ _ _ _ hrw with ⟨hadj, hshr, hlev⟩
  have hnames' : mods'.map Mod.name = mods.map Mod.name := shrinks_names hshr
  rcases writeLevels_total mods' G' (by
      intro m hm
      have hmn : m.name ∈ nl := by
        have hmem : m.name ∈ mods'.map Mod.name :=
          List.mem_map.mpr ⟨m, hm, rfl⟩
        rw [hnames'] at hmem
        rcases List.mem_map.mp hmem with ⟨m₀, hm₀, he⟩
        rw [← he]
        exact hnames m₀ hm₀
      cases hcase : lastHit (buildGraph nl mods)
          ((buildGraph nl mods).nodes.length + 1)
          (rootsOf (buildGraph nl mods)) m.name with
      | some j =>
        rw [(hlev m.name).1 j hcase]
        simp
      | none =>
        rw [(hlev m.name).2 hcase, buildGraph_levels, if_pos hmn]
        simp) with ⟨out, hwl⟩
  refine ⟨out, ?_⟩
  show (match runWaves ((buildGraph nl mods).nodes.length + 1)
      (rootsOf (buildGraph nl mods)) 2 (buildGraph nl mods) mods with
    | none => none
    | some (G', mods') => writeLevels G' mods') = some out
  rw [hrw]
  exact hwl

theorem calculateLevels_levelOf_char {nl : List String} {mods : List Mod}
    {out : List Mod} {ord : String → Nat}
    (ht : TopoOrd (buildGraph nl mods) ord)
    (hout : calculateLevels nl mods = some out)
    {v : String} (hv : ∃ m ∈ mods, m.name = v) (hvnl : v ∈ nl) :
    ∀ L, ReachS (buildGraph nl mods) v L →
      (∀ k, ReachS (buildGraph nl mods) v k → k ≤ L) →
      levelOf out v = some (L + 1) := by
  intro L hL hmax
  have hWf := buildGraph_wf nl mods
  have hout' := hout
  rw [calculateLevels] at hout'
  cases hrw : runWaves ((buildGraph nl mods).nodes.length + 1)
      (rootsOf (buildGraph nl mods)) 2 (buildGraph nl mods) mods with
  | none => rw [hrw] at hout'; cases hout'
  | some r =>
    obtain ⟨G', mods'⟩ := r
    rw [hrw] at hout'
    simp only at hout'
    rcases runWaves_spec _ _ _ _ _ _ _ hrw with ⟨hadj, hshr, hlev⟩
    have hname' : ∃ m ∈ mods', m.name = v := by
      rcases hv with ⟨m, hm, hmname⟩
      have hmem : v ∈ mods'.map Mod.name := by
        rw [shrinks_names hshr]
        exact List.mem_map.mpr ⟨m, hm, hmname⟩
      rcases List.mem_map.mp hmem with ⟨m', hm', he⟩
      exact ⟨m', hm', he⟩
    rw [writeLevels_levelOf hout' hname']
    rcases L with _ | L'
    · have hnone : lastHit (buildGraph nl mods)
          ((buildGraph nl mods).nodes.length + 1)
          (rootsOf (buildGraph nl mods)) v = none := by
        cases hcase : lastHit (buildGraph nl mods)
            ((buildGraph nl mods).nodes.length + 1)
            (rootsOf (buildGraph nl mods)) v with
        | none => rfl
        | some j =>
          exfalso
          have hmem := lastHit_mem _ _ v j hcase
          have hre : ReachS (buildGraph nl mods) v (j + 1) :=
            reachS_of_frontier_roots hmem
          have := hmax (j + 1) hre
          omega
      rw [(hlev v).2 hnone, buildGraph_levels, if_pos hvnl]
    · have hmem : v ∈ frontierSeq (buildGraph nl mods)
          (rootsOf (buildGraph nl mods)) (L' + 1) :=
        frontier_roots_of_reachS (by omega) hL
      have hbound : L' + 1 + 1 ≤ (buildGraph nl mods).nodes.length := by
        rcases hL with ⟨r, hr0, hs⟩
        refine steps_le_nodes hWf ht hs ?_
        rcases steps_first_edge hs with ⟨w, hw, _⟩
        exact mem_nodes_of_successors_ne hw
      rcases lastHit_ge ((buildGraph nl mods).nodes.length + 1)
        (rootsOf (buildGraph nl mods)) v L' hmem (by omega) with
        ⟨j, hjge, hjeq⟩
      have hjle : j ≤ L' := by
        have hmem' := lastHit_mem _ _ v j hjeq
        have hre : ReachS (buildGraph nl mods) v (j + 1) :=
          reachS_of_frontier_roots hmem'
        have := hmax (j + 1) hre
        omega
      have hj : j = L' := Nat.le_antisymm hjle hjge
      subst hj
      rw [(hlev v).1 j hjeq]
      congr 1
      omega

theorem calculateLevels_unreached {nl : List String} {mods out : List Mod}
    (hout : calculateLevels nl mods = some out)
    {v : String} (hv : ∃ m ∈ mods, m.name = v) (hvnl : v ∈ nl)
    (hnr : ∀ k, k ≠ 0 → ¬ ReachS (buildGraph nl mods) v k) :
    levelOf out v = some 1 := by
  have hout' := hout
  rw [calculateLevels] at hout'
  cases hrw : runWaves ((buildGraph nl mods).nodes.length + 1)
      (rootsOf (buildGraph nl mods)) 2 (buildGraph nl mods) mods with
  | none => rw [hrw] at hout'; cases hout'
  | some r =>
    obtain ⟨G', mods'⟩ := r
    rw [hrw] at hout'
    simp only at hout'
    rcases runWaves_spec _ _ _ _ _ _ _ hrw with ⟨hadj, hshr, hlev⟩
    have hname' : ∃ m ∈ mods', m.name = v := by
      rcases hv with ⟨m, hm, hmname⟩
      have hmem : v ∈ mods'.map Mod.name := by
        rw [shrinks_names hshr]
        exact List.mem_map.mpr ⟨m, hm, hmname⟩
      rcases List.mem_map.mp hmem with ⟨m', hm', he⟩
      exact ⟨m', hm', he⟩
    rw [writeLevels_levelOf hout' hname']
    have hnone : lastHit (buildGraph nl mods)
        ((buildGraph nl mods).nodes.length + 1)
        (rootsOf (buildGraph nl mods)) v = none := by
      cases hcase : lastHit (buildGraph nl mods)
          ((buildGraph nl mods).nodes.length + 1)
          (rootsOf (buildGraph nl mods)) v with
      | none => rfl
      | some j =>
        exfalso
        exact hnr (j + 1) (by omega)
          (reachS_of_frontier_roots (lastHit_mem _ _ v j hcase))
    rw [(hlev v).2 hnone, buildGraph_levels, if_pos hvnl]

/-! ### Claims -/

/-- C5: every module with in-degree zero in the dependency graph — no
dependencies inside the tracked module set, including fully isolated
modules — has final level exactly 1 in the output of `calculateLevels`. -/
theorem c5_zero_in_degree_level_one {nl : List String} {mods out : List Mod}
    (hout : calculateLevels nl mods = some out)
    {v : String} (hv : ∃ m ∈ mods, m.name = v) (hvnl : v ∈ nl)
    (hdeg : in_degree (buildGraph nl mods) v = 0) :
    levelOf out v = some 1 := by
  refine calculateLevels_unreached hout hv hvnl ?_
  intro k hk hre
  rcases hre with ⟨r, hr0, hs⟩
  exact steps_pos_in_degree hs hk hdeg

/-- Witness for C5 on a two-module graph with a single edge `X → Y`
plus an isolated module `Z`: `X` and `Z` both have in-degree 0 and get
level 1. -/
theorem c5_witness :
    levelOf [⟨"X", "", 1, true, ["Y"]⟩, ⟨"Y", "", 2, true, []⟩,
      ⟨"Z", "", 1, true, []⟩] "Z" = some 1 :=
  @c5_zero_in_degree_level_one ["X", "Y", "Z"]
    [⟨"X", "", 0, true, ["Y"]⟩, ⟨"Y", "", 0, true, []⟩,
      ⟨"Z", "", 0, true, []⟩]
    [⟨"X", "", 1, true, ["Y"]⟩, ⟨"Y", "", 2, true, []⟩,
      ⟨"Z", "", 1, true, []⟩]
    (by decide) "Z"
    ⟨⟨"Z", "", 0, true, []⟩, by decide, rfl⟩
    (by decide) (by decide)

/-- C1: after `calculateLevels` on an acyclic input (witnessed by a
topological numbering), (i) every dependent edge surviving in the output
strictly increases the level, and (ii) every module reachable from a
zero-in-degree root, with longest root-to-module path of `L` hops, gets
level exactly `L + 1`. -/
theorem c1_strict_edges_and_longest_path {nl : List String}
    {mods out : List Mod} {ord : String → Nat}
    (ht : TopoOrd (buildGraph nl mods) ord)
    (hnd : (mods.map Mod.name).Nodup)
    (hnl : mods.map Mod.name = nl)
    (hout : calculateLevels nl mods = some out) :
    (∀ a b la lb, (∃ m ∈ mods, m.name = a) → (∃ m ∈ mods, m.name = b) →
      b ∈ depsOf out a → levelOf out a = some la →
      levelOf out b = some lb → la < lb) ∧
    (∀ v L, (∃ m ∈ mods, m.name = v) →
      ReachS (buildGraph nl mods) v L →
      (∀ k, ReachS (buildGraph nl mods) v k → k ≤ L) →
      levelOf out v = some (L + 1)) := by
  have hWf := buildGraph_wf nl mods
  have hrec_nl : ∀ x, (∃ m ∈ mods, m.name = x) → x ∈ nl := by
    intro x ⟨m, hm, hname⟩
    rw [← hnl]
    exact List.mem_map.mpr ⟨m, hm, hname⟩
  have hchar := fun v L hv hL hmax =>
    calculateLevels_levelOf_char ht hout hv (hrec_nl v hv) L hL hmax
  refine ⟨?_, hchar⟩
  intro a b la lb ha hb hdep hla hlb
  have hdep₀ : b ∈ depsOf mods a := by
    have hout' := hout
    rw [calculateLevels] at hout'
    cases hrw : runWaves ((buildGraph nl mods).nodes.length + 1)
        (rootsOf (buildGraph nl mods)) 2 (buildGraph nl mods) mods with
    | none => rw [hrw] at hout'; cases hout'
    | some r =>
      obtain ⟨G', mods'⟩ := r
      rw [hrw] at hout'
      simp only at hout'
      rcases runWaves_spec _ _ _ _ _ _ _ hrw with ⟨_, hshr, _⟩
      rw [writeLevels_depsOf hout' a] at hdep
      exact (depsOf_of_shrinks hshr a).subset hdep
  have hedge : b ∈ successors (buildGraph nl mods) a :=
    (mem_successors_buildGraph_depsOf hnd a b).mpr hdep₀
  rcases exists_max_reach hWf ht a with ⟨La, hLa, hLamax⟩
  rcases exists_max_reach hWf ht b with ⟨Lb, hLb, hLbmax⟩
  have hab : La + 1 ≤ Lb := by
    rcases hLa with ⟨r, hr0, hs⟩
    exact hLbmax (La + 1) ⟨r, hr0, Steps.snoc hs hedge⟩
  have hla' : levelOf out a = some (La + 1) := hchar a La ha hLa hLamax
  have hlb' : levelOf out b = some (Lb + 1) := hchar b Lb hb hLb hLbmax
  rw [hla] at hla'
  rw [hlb] at hlb'
  simp only [Option.some.injEq] at hla' hlb'
  omega

/-- Witness for C1 on the three-module example `A → {B, C}`, `B → {C}`:
the longest path to `C` has 2 hops, so its level is 3. -/
theorem c1_witness :
    levelOf [⟨"A", "", 1, true, ["B"]⟩, ⟨"B", "", 2, true, ["C"]⟩,
      ⟨"C", "", 3, true, []⟩] "C" = some 3 :=
  (@c1_strict_edges_and_longest_path ["A", "B", "C"]
    [⟨"A", "", 0, true, ["B", "C"]⟩, ⟨"B", "", 0, true, ["C"]⟩,
      ⟨"C", "", 0, true, []⟩]
    [⟨"A", "", 1, true, ["B"]⟩, ⟨"B", "", 2, true, ["C"]⟩,
      ⟨"C", "", 3, true, []⟩]
    (fun n => if n = "A" then 0 else if n = "B" then 1 else 2)
    (by decide) (by decide) (by decide) (by decide)).2 "C" 2
    ⟨⟨"C", "", 0, true, []⟩, by decide, rfl⟩
    ⟨"A", by decide,
      Steps.snoc
        (Steps.snoc (Steps.refl "A")
          (show "B" ∈ successors (buildGraph ["A", "B", "C"]
            [⟨"A", "", 0, true, ["B", "C"]⟩, ⟨"B", "", 0, true, ["C"]⟩,
              ⟨"C", "", 0, true, []⟩]) "A" by decide))
        (show "C" ∈ successors (buildGraph ["A", "B", "C"]
          [⟨"A", "", 0, true, ["B", "C"]⟩, ⟨"B", "", 0, true, ["C"]⟩,
            ⟨"C", "", 0, true, []⟩]) "B" by decide)⟩
    (fun k hk => by
      have hb := @reachS_bounded
        (buildGraph ["A", "B", "C"]
          [⟨"A", "", 0, true, ["B", "C"]⟩, ⟨"B", "", 0, true, ["C"]⟩,
            ⟨"C", "", 0, true, []⟩])
        (fun n => if n = "A" then 0 else if n = "B" then 1 else 2)
        (by decide) "C" k hk
      simpa using hb)

/-- C4: on the concrete input with modules {A, B, C}, A's dependents
{B, C} and B's dependents {C}, `calculateLevels` computes level(A)=1,
level(B)=2, level(C)=3, and pruning removes C from A's dependents. -/
theorem c4_concrete_example :
    calculateLevels ["A", "B", "C"]
      [⟨"A", "", 0, true, ["B", "C"]⟩, ⟨"B", "", 0, true, ["C"]⟩,
        ⟨"C", "", 0, true, []⟩] =
      some [⟨"A", "", 1, true, ["B"]⟩, ⟨"B", "", 2, true, ["C"]⟩,
        ⟨"C", "", 3, true, []⟩] := by
  decide

/-- C2 counterexample: with module name set {A} and a `dependents` entry
`B` outside the set, the run does not abort: `calculateLevels` completes
successfully and the foreign name `B` has silently become a graph node. -/
theorem c2_counterexample :
    calculateLevels ["A"] [⟨"A", "", 0, true, ["B"]⟩] =
      some [⟨"A", "", 1, true, ["B"]⟩] ∧
    "B" ∈ (buildGraph ["A"] [⟨"A", "", 0, true, ["B"]⟩]).nodes := by
  constructor
  · decide
  · decide

/-- C2 amended: graph construction never aborts on a `dependents` entry
outside the module name set; `add_edge` silently adds the foreign name as
a node, so the node set of the built graph is exactly the module name list
together with every name occurring in any `dependents` list. -/
theorem c2_amended_foreign_names_silently_added
    (nl : List String) (mods : List Mod) (x : String) :
    x ∈ (buildGraph nl mods).nodes ↔
      x ∈ nl ∨ ∃ m ∈ mods, ∃ d ∈ m.dependents, x = m.name ∨ x = d :=
  mem_nodes_buildGraph nl mods x

/-- C3 counterexample: `initializeModuleDetails` creates every module
record with `level` 0, not 1 (main.py line 186). -/
theorem c3_counterexample :
    (initializeModuleDetails (fun _ => "") ["A"]).map Mod.level = [0] :=
  rfl

theorem writeLevels_exists_source :
    ∀ {mods out : List Mod} {G : DiGraph}, writeLevels G mods = some out →
      ∀ m ∈ out, ∃ m₀ ∈ mods, getAssoc G.levels m₀.name = some m.level := by
  intro mods
  induction mods with
  | nil =>
    intro out G h m hm
    simp only [writeLevels, Option.some.injEq] at h
    subst h
    simp at hm
  | cons m₁ rest ih =>
    intro out G h m hm
    rw [writeLevels] at h
    cases hg : getAssoc G.levels m₁.name with
    | none => rw [hg] at h; cases h
    | some l =>
      rw [hg] at h
      cases hw : writeLevels G rest with
      | none => rw [hw] at h; cases h
      | some rest' =>
        rw [hw] at h
        simp only [Option.some.injEq] at h
        subst h
        rcases List.mem_cons.mp hm with he | ht
        · subst he
          exact ⟨m₁, List.mem_cons_self m₁ rest, hg⟩
        · rcases ih hw m ht with ⟨m₀, hm₀, hgl⟩
          exact ⟨m₀, List.mem_cons_of_mem m₁ hm₀, hgl⟩

theorem writeLevels_name_deps :
    ∀ {mods out : List Mod} {G : DiGraph}, writeLevels G mods = some out →
      List.Forall₂ (fun m' m => m'.name = m.name ∧
        m'.dependents = m.dependents) out mods := by
  intro mods
  induction mods with
  | nil =>
    intro out G h
    simp only [writeLevels, Option.some.injEq] at h
    subst h
    exact List.Forall₂.nil
  | cons m₁ rest ih =>
    intro out G h
    rw [writeLevels] at h
    cases hg : getAssoc G.levels m₁.name with
    | none => rw [hg] at h; cases h
    | some l =>
      rw [hg] at h
      cases hw : writeLevels G rest with
      | none => rw [hw] at h; cases h
      | some rest' =>
        rw [hw] at h
        simp only [Option.some.injEq] at h
        subst h
        exact List.Forall₂.cons ⟨rfl, rfl⟩ (ih hw)

theorem forall₂_name_deps_shrinks {a b c : List Mod}
    (h1 : List.Forall₂ (fun m' m => m'.name = m.name ∧
      m'.dependents = m.dependents) a b)
    (h2 : List.Forall₂ Shrinks b c) :
    List.Forall₂ (fun m' m => m'.name = m.name ∧
      m'.dependents.Sublist m.dependents) a c := by
  induction h1 generalizing c with
  | nil =>
    cases h2
    exact List.Forall₂.nil
  | cons hm t ih =>
    cases h2 with
    | cons hs ht =>
      exact List.Forall₂.cons
        ⟨hm.1.trans hs.1, hm.2 ▸ hs.2.2.2.2⟩ (ih ht)

/-- C3 amended: module records are created with level 0; the graph node
`level` attributes start at 1 for every listed module; the record level is
written once at the end of the run and is then at least 1; and each
record's `dependents` list only ever shrinks (it is a sublist of the
input one). -/
theorem c3_levels_start_and_dependents_shrink
    {nl : List String} {mods out : List Mod}
    (hout : calculateLevels nl mods = some out) :
    (∀ (gv : String → String) (names : List String),
      ∀ m ∈ initializeModuleDetails gv names, m.level = 0) ∧
    (∀ v ∈ nl, getAssoc (buildGraph nl mods).levels v = some 1) ∧
    (∀ m ∈ out, 1 ≤ m.level) ∧
    List.Forall₂ (fun m' m => m'.name = m.name ∧
      m'.dependents.Sublist m.dependents) out mods := by
  have hout' := hout
  rw [calculateLevels] at hout'
  cases hrw : runWaves ((buildGraph nl mods).nodes.length + 1)
      (rootsOf (buildGraph nl mods)) 2 (buildGraph nl mods) mods with
  | none => rw [hrw] at hout'; cases hout'
  | some r =>
    obtain ⟨G', mods'⟩ := r
    rw [hrw] at hout'
    simp only at hout'
    rcases runWaves_spec _ _ _ _ _ _ _ hrw with ⟨hadj, hshr, hlev⟩
    have hwspec := writeLevels_spec mods' out G' hout'
    refine ⟨?_, ?_, ?_, ?_⟩
    · intro gv names m hm
      rcases List.mem_map.mp hm with ⟨n, _, he⟩
      rw [← he]
    · intro v hv
      rw [buildGraph_levels, if_pos hv]
    · intro m hm
      rcases writeLevels_exists_source hout' m hm with ⟨m₀, hm₀, hg⟩
      cases hcase : lastHit (buildGraph nl mods)
          ((buildGraph nl mods).nodes.length + 1)
          (rootsOf (buildGraph nl mods)) m₀.name with
      | some j =>
        have hlv := (hlev m₀.name).1 j hcase
        rw [hg] at hlv
        simp only [Option.some.injEq] at hlv
        omega
      | none =>
        have hlv := (hlev m₀.name).2 hcase
        rw [hg, buildGraph_levels] at hlv
        by_cases hin : m₀.name ∈ nl
        · rw [if_pos hin] at hlv
          simp only [Option.some.injEq] at hlv
          omega
        · rw [if_neg hin] at hlv
          cases hlv
    · exact forall₂_name_deps_shrinks (writeLevels_name_deps hout') hshr

/-- Witness for C3's amended statement: the first record of
`initializeModuleDetails` has level 0. -/
theorem c3_witness :
    (⟨"A", "", 0, true, []⟩ : Mod).level = 0 :=
  (@c3_levels_start_and_dependents_shrink ["A"] [⟨"A", "", 0, true, []⟩]
    [⟨"A", "", 1, true, []⟩] (by decide)).1 (fun _ => "") ["A"]
    ⟨"A", "", 0, true, []⟩ (by decide)

/-- C6: whenever the pruner actually removes `destination` from
`source`'s recorded dependents (the records change), there is an
intermediate module I, distinct from both, such that the graph has a
direct edge source → I and a directed path (of at least one edge) from I
to destination. -/
theorem c6_pruned_implies_intermediate {G G' : DiGraph} {s d : String}
    {succs : List String} {mods mods' : List Mod}
    (h : removeModulesInIntermediatePaths G s d succs mods = some (G', mods'))
    (hch : mods' ≠ mods) :
    ∃ i, i ≠ s ∧ i ≠ d ∧ i ∈ successors G s ∧
      ∃ p, isChain G p = true ∧ p.head? = some i ∧ p.getLast? = some d ∧
        2 ≤ p.length := by
  unfold removeModulesInIntermediatePaths at h
  cases hp : pyMax (all_simple_paths G s d) with
  | none => rw [hp] at h; cases h
  | some p =>
    rw [hp] at h
    simp only [Option.some.injEq, Prod.mk.injEq] at h
    rcases all_simple_paths_sound (pyMax_mem hp) with ⟨hc, hh, hl, hnd⟩
    cases p with
    | nil => simp at hh
    | cons s' t =>
      have hs : s = s' := by
        have h' : s' = s := by simpa using hh
        exact h'.symm
      subst hs
      cases t with
      | nil =>
        exfalso
        exact hch (by simpa using h.2.symm)
      | cons i t2 =>
        cases t2 with
        | nil =>
          exfalso
          exact hch (by simpa using h.2.symm)
        | cons r1 rest =>
          obtain ⟨hedge, hchain⟩ := isChain_cons_cons.mp hc
          have hnd' := List.nodup_cons.mp hnd
          have hind : i ∉ r1 :: rest := (List.nodup_cons.mp hnd'.2).1
          have hld : (r1 :: rest).getLast? = some d := by
            rw [List.getLast?_cons_cons, List.getLast?_cons_cons] at hl
            exact hl
          refine ⟨i, ?_, ?_, hedge, i :: r1 :: rest, hchain, rfl, ?_, ?_⟩
          · intro he
            exact hnd'.1 (he ▸ List.mem_cons_self i (r1 :: rest))
          · intro he
            refine hind ?_
            rw [he]
            exact mem_of_getLast?_eq hld
          · rw [List.getLast?_cons_cons]
            exact hld
          · simp

/-- Witness for C6: the pruning of C from A's dependents in the
three-module example exhibits B as the intermediate. -/
theorem c6_witness :
    ∃ i, i ≠ "A" ∧ i ≠ "C" ∧
      i ∈ successors (buildGraph ["A", "B", "C"]
        [⟨"A", "", 0, true, ["B", "C"]⟩, ⟨"B", "", 0, true, ["C"]⟩,
          ⟨"C", "", 0, true, []⟩]) "A" ∧
      ∃ p, isChain (buildGraph ["A", "B", "C"]
        [⟨"A", "", 0, true, ["B", "C"]⟩, ⟨"B", "", 0, true, ["C"]⟩,
          ⟨"C", "", 0, true, []⟩]) p = true ∧
        p.head? = some i ∧ p.getLast? = some "C" ∧ 2 ≤ p.length :=
  @c6_pruned_implies_intermediate
    (buildGraph ["A", "B", "C"]
      [⟨"A", "", 0, true, ["B", "C"]⟩, ⟨"B", "", 0, true, ["C"]⟩,
        ⟨"C", "", 0, true, []⟩])
    (buildGraph ["A", "B", "C"]
      [⟨"A", "", 0, true, ["B", "C"]⟩, ⟨"B", "", 0, true, ["C"]⟩,
        ⟨"C", "", 0, true, []⟩])
    "A" "C" ["B", "C"]
    [⟨"A", "", 0, true, ["B", "C"]⟩, ⟨"B", "", 0, true, ["C"]⟩,
      ⟨"C", "", 0, true, []⟩]
    [⟨"A", "", 0, true, ["B"]⟩, ⟨"B", "", 0, true, ["C"]⟩,
      ⟨"C", "", 0, true, []⟩]
    (by decide) (by decide)

/-- C8: pruning is idempotent — invoking the pruner a second time for the
same (source, destination) pair on the already-pruned records removes
nothing further and leaves the records unchanged. -/
theorem c8_prune_idempotent {G G' : DiGraph} {s d : String}
    {succs : List String} {mods mods' : List Mod}
    (hnd : (depsOf mods s).Nodup)
    (h : removeModulesInIntermediatePaths G s d succs mods =
      some (G', mods')) :
    removeModulesInIntermediatePaths G s d succs mods' =
      some (G', mods') := by
  have hG : G' = G := removeModules_graph_frame h
  subst hG
  unfold removeModulesInIntermediatePaths at h ⊢
  cases hp : pyMax (all_simple_paths G' s d) with
  | none => rw [hp] at h; cases h
  | some p =>
    rw [hp] at h
    have h2 : ((p.drop 1).dropLast).foldl
        (fun acc n => if n ∈ succs then removeDependent acc s d else acc)
        mods = mods' := by
      have h' : some (G', ((p.drop 1).dropLast).foldl
          (fun acc n => if n ∈ succs then removeDependent acc s d else acc)
          mods) = some (G', mods') := h
      simpa using h'
    show (match some p with
      | none => none
      | some longestPath =>
        some (G', ((longestPath.drop 1).dropLast).foldl
          (fun acc n => if n ∈ succs then removeDependent acc s d else acc)
          mods')) = some (G', mods')
    show some (G', ((p.drop 1).dropLast).foldl
      (fun acc n => if n ∈ succs then removeDependent acc s d else acc)
      mods') = some (G', mods')
    rw [prune_foldl_eq succs s d _ mods hnd] at h2
    by_cases hex : ∃ n ∈ (p.drop 1).dropLast, n ∈ succs
    · rw [if_pos hex] at h2
      subst h2
      rw [prune_foldl_eq succs s d _ (removeDependent mods s d)
        (depsOf_removeDependent_nodup hnd), if_pos hex,
        removeDependent_idem mods s d hnd]
    · rw [if_neg hex] at h2
      subst h2
      rw [prune_foldl_eq succs s d _ mods hnd, if_neg hex]

/-- Witness for C8: re-pruning the already pruned records of the
three-module example changes nothing. -/
theorem c8_witness :
    removeModulesInIntermediatePaths
      (buildGraph ["A", "B", "C"]
        [⟨"A", "", 0, true, ["B", "C"]⟩, ⟨"B", "", 0, true, ["C"]⟩,
          ⟨"C", "", 0, true, []⟩]) "A" "C" ["B", "C"]
      [⟨"A", "", 0, true, ["B"]⟩, ⟨"B", "", 0, true, ["C"]⟩,
        ⟨"C", "", 0, true, []⟩] =
    some (buildGraph ["A", "B", "C"]
      [⟨"A", "", 0, true, ["B", "C"]⟩, ⟨"B", "", 0, true, ["C"]⟩,
        ⟨"C", "", 0, true, []⟩],
      [⟨"A", "", 0, true, ["B"]⟩, ⟨"B", "", 0, true, ["C"]⟩,
        ⟨"C", "", 0, true, []⟩]) :=
  @c8_prune_idempotent
    (buildGraph ["A", "B", "C"]
      [⟨"A", "", 0, true, ["B", "C"]⟩, ⟨"B", "", 0, true, ["C"]⟩,
        ⟨"C", "", 0, true, []⟩])
    (buildGraph ["A", "B", "C"]
      [⟨"A", "", 0, true, ["B", "C"]⟩, ⟨"B", "", 0, true, ["C"]⟩,
        ⟨"C", "", 0, true, []⟩])
    "A" "C" ["B", "C"]
    [⟨"A", "", 0, true, ["B", "C"]⟩, ⟨"B", "", 0, true, ["C"]⟩,
      ⟨"C", "", 0, true, []⟩]
    [⟨"A", "", 0, true, ["B"]⟩, ⟨"B", "", 0, true, ["C"]⟩,
      ⟨"C", "", 0, true, []⟩]
    (by decide) (by decide)

/-- C9: `calculateLevels` only writes the per-module `level` and
`dependents` fields: the output records carry the same names, versions
and release flags, in the same order, as the input records. -/
theorem c9_frame_fields {nl : List String} {mods out : List Mod}
    (hout : calculateLevels nl mods = some out) :
    out.map Mod.name = mods.map Mod.name ∧
    out.map Mod.version = mods.map Mod.version ∧
    out.map Mod.release = mods.map Mod.release := by
  have hout' := hout
  rw [calculateLevels] at hout'
  cases hrw : runWaves ((buildGraph nl mods).nodes.length + 1)
      (rootsOf (buildGraph nl mods)) 2 (buildGraph nl mods) mods with
  | none => rw [hrw] at hout'; cases hout'
  | some r =>
    obtain ⟨G', mods'⟩ := r
    rw [hrw] at hout'
    simp only at hout'
    rcases runWaves_spec _ _ _ _ _ _ _ hrw with ⟨_, hshr, _⟩
    rcases writeLevels_names hout' with ⟨h1, h2, h3⟩
    exact ⟨h1.trans (shrinks_names hshr),
      h2.trans (shrinks_field_maps hshr).1,
      h3.trans (shrinks_field_maps hshr).2⟩

/-- Witness for C9 on the three-module example. -/
theorem c9_witness :
    ([⟨"A", "", 1, true, ["B"]⟩, ⟨"B", "", 2, true, ["C"]⟩,
        ⟨"C", "", 3, true, []⟩] : List Mod).map Mod.name =
      ([⟨"A", "", 0, true, ["B", "C"]⟩, ⟨"B", "", 0, true, ["C"]⟩,
        ⟨"C", "", 0, true, []⟩] : List Mod).map Mod.name :=
  (@c9_frame_fields ["A", "B", "C"]
    [⟨"A", "", 0, true, ["B", "C"]⟩, ⟨"B", "", 0, true, ["C"]⟩,
      ⟨"C", "", 0, true, []⟩]
    [⟨"A", "", 1, true, ["B"]⟩, ⟨"B", "", 2, true, ["C"]⟩,
      ⟨"C", "", 3, true, []⟩] (by decide)).1

/-! ### The pruning-free variant computes the same levels -/

theorem processSuccessorsNP_spec (lvl : Nat) :
    ∀ (rest temp : List String) (G : DiGraph),
      (processSuccessorsNP lvl rest temp G).1 = rest.foldl pushNew temp ∧
      (processSuccessorsNP lvl rest temp G).2.adj = G.adj ∧
      (processSuccessorsNP lvl rest temp G).2.levels =
        rest.foldl (fun L s => setAssoc L s lvl) G.levels := by
  intro rest
  induction rest with
  | nil => intro temp G; exact ⟨rfl, rfl, rfl⟩
  | cons s srest ih =>
    intro temp G
    rw [processSuccessorsNP]
    exact ih (pushNew temp s) { G with levels := setAssoc G.levels s lvl }

theorem processNodesNP_spec (lvl : Nat) :
    ∀ (pl temp : List String) (G : DiGraph),
      (processNodesNP lvl pl temp G).1 = nextFrontierFrom G pl temp ∧
      (processNodesNP lvl pl temp G).2.adj = G.adj ∧
      (processNodesNP lvl pl temp G).2.levels =
        pl.foldl (fun L u => (successors G u).foldl
          (fun L s => setAssoc L s lvl) L) G.levels := by
  intro pl
  induction pl with
  | nil => intro temp G; exact ⟨rfl, rfl, rfl⟩
  | cons node rest ih =>
    intro temp G
    rw [processNodesNP]
    rcases processSuccessorsNP_spec lvl (successors G node) temp G with
      ⟨h1, h2, h3⟩
    rcases ih (processSuccessorsNP lvl (successors G node) temp G).1
      (processSuccessorsNP lvl (successors G node) temp G).2 with
      ⟨g1, g2, g3⟩
    refine ⟨?_, g2.trans h2, ?_⟩
    · rw [g1, nextFrontierFrom_congr h2, h1]
      rfl
    · rw [g3]
      rw [successors_congr h2, h3]
      rfl

theorem runWavesNP_spec :
    ∀ (fuel : Nat) (pl : List String) (lvl : Nat) (G G' : DiGraph),
      runWavesNP fuel pl lvl G = some G' →
      G'.adj = G.adj ∧
      ∀ v,
        (∀ j, lastHit G fuel pl v = some j →
          getAssoc G'.levels v = some (lvl + j)) ∧
        (lastHit G fuel pl v = none →
          getAssoc G'.levels v = getAssoc G.levels v) := by
  intro fuel
  induction fuel with
  | zero =>
    intro pl lvl G G' h
    cases pl with
    | nil =>
      rw [runWavesNP] at h
      simp only [Option.some.injEq] at h
      subst h
      refine ⟨rfl, ?_⟩
      intro v
      exact ⟨fun j hj => (by rw [lastHit] at hj; cases hj), fun _ => rfl⟩
    | cons p t =>
      rw [runWavesNP] at h
      cases h
  | succ fuel ih =>
    intro pl lvl G G' h
    cases pl with
    | nil =>
      rw [runWavesNP] at h
      simp only [Option.some.injEq] at h
      subst h
      refine ⟨rfl, ?_⟩
      intro v
      exact ⟨fun j hj => (by rw [lastHit] at hj; cases hj), fun _ => rfl⟩
    | cons p t =>
      simp only [runWavesNP] at h
      rcases processNodesNP_spec lvl (p :: t) [] G with ⟨htemp, hadj₁, hlv₁⟩
      rcases ih (processNodesNP lvl (p :: t) [] G).1 (lvl + 1)
        (processNodesNP lvl (p :: t) [] G).2 G' h with ⟨hadj, hlev⟩
      refine ⟨hadj.trans hadj₁, ?_⟩
      intro v
      have htempNF : (processNodesNP lvl (p :: t) [] G).1 =
          nextFrontier G (p :: t) := htemp
      have hlh : lastHit G (fuel + 1) (p :: t) v =
          match lastHit G fuel (nextFrontier G (p :: t)) v with
          | some j => some (j + 1)
          | none =>
            if v ∈ nextFrontier G (p :: t) then some 0 else none := by
        rw [lastHit]
        all_goals simp
      have hlhc : lastHit (processNodesNP lvl (p :: t) [] G).2 fuel
          (processNodesNP lvl (p :: t) [] G).1 v =
          lastHit G fuel (nextFrontier G (p :: t)) v := by
        rw [lastHit_congr hadj₁, htempNF]
      have hG₁v : getAssoc (processNodesNP lvl (p :: t) [] G).2.levels v =
          if ∃ u ∈ p :: t, v ∈ successors G u then some lvl
          else getAssoc G.levels v := by
        rw [hlv₁]
        exact getAssoc_foldl_waveWrite G lvl (p :: t) G.levels v
      cases hrec : lastHit G fuel (nextFrontier G (p :: t)) v with
      | some j =>
        rw [hrec] at hlh
        constructor
        · intro j' hj'
          rw [hlh] at hj'
          simp only [Option.some.injEq] at hj'
          subst hj'
          have := (hlev v).1 j (by rw [hlhc]; exact hrec)
          rw [this]
          congr 1
          omega
        · intro hnone
          rw [hlh] at hnone
          cases hnone
      | none =>
        rw [hrec] at hlh
        have hlev₂ := (hlev v).2 (by rw [hlhc]; exact hrec)
        constructor
        · intro j' hj'
          rw [hlh] at hj'
          by_cases hv : v ∈ nextFrontier G (p :: t)
          · rw [if_pos hv] at hj'
            simp only [Option.some.injEq] at hj'
            subst hj'
            rw [hlev₂, hG₁v, if_pos (mem_nextFrontier.mp hv)]
            simp
          · rw [if_neg hv] at hj'
            cases hj'
        · intro hnone
          rw [hlh] at hnone
          by_cases hv : v ∈ nextFrontier G (p :: t)
          · rw [if_pos hv] at hnone
            cases hnone
          · rw [hlev₂, hG₁v, if_neg (fun hex =>
              hv (mem_nextFrontier.mpr hex))]

theorem runWavesNP_total :
    ∀ (fuel : Nat) (pl : List String) (lvl : Nat) (G : DiGraph),
      frontierSeq G pl fuel = [] →
      ∃ G', runWavesNP fuel pl lvl G = some G' := by
  intro fuel
  induction fuel with
  | zero =>
    intro pl lvl G hempty
    have hpl : pl = [] := hempty
    subst hpl
    exact ⟨G, rfl⟩
  | succ fuel ih =>
    intro pl lvl G hempty
    cases pl with
    | nil => exact ⟨G, rfl⟩
    | cons p t =>
      rcases processNodesNP_spec lvl (p :: t) [] G with ⟨htemp, hadj₁, _⟩
      rcases ih (processNodesNP lvl (p :: t) [] G).1 (lvl + 1)
        (processNodesNP lvl (p :: t) [] G).2 (by
          rw [frontierSeq_congr hadj₁]
          have htempNF : (processNodesNP lvl (p :: t) [] G).1 =
              nextFrontier G (p :: t) := htemp
          rw [htempNF, frontierSeq_shift]
          exact hempty) with ⟨G', hrw⟩
      exact ⟨G', by simp only [runWavesNP]; exact hrw⟩

theorem runWaves_frontier_empty :
    ∀ (fuel : Nat) (pl : List String) (lvl : Nat) (G : DiGraph)
      (mods : List Mod) (G' : DiGraph) (mods' : List Mod),
      runWaves fuel pl lvl G mods = some (G', mods') →
      frontierSeq G pl fuel = [] := by
  intro fuel
  induction fuel with
  | zero =>
    intro pl lvl G mods G' mods' h
    cases pl with
    | nil => exact frontierSeq_nil G 0
    | cons p t => rw [runWaves] at h; cases h
  | succ fuel ih =>
    intro pl lvl G mods G' mods' h
    cases pl with
    | nil => exact frontierSeq_nil G (fuel + 1)
    | cons p t =>
      simp only [runWaves] at h
      cases hpn : processNodes lvl (p :: t) [] G mods with
      | none => rw [hpn] at h; cases h
      | some r =>
        obtain ⟨temp, G₁, mods₁⟩ := r
        rw [hpn] at h
        simp only at h
        rcases processNodes_spec lvl (p :: t) [] G mods temp G₁ mods₁ hpn with
          ⟨htemp, hadj₁, _, _⟩
        have hrec := ih temp (lvl + 1) G₁ mods₁ G' mods' h
        rw [frontierSeq_congr hadj₁] at hrec
        have htempNF : temp = nextFrontier G (p :: t) := htemp
        rw [htempNF, frontierSeq_shift] at hrec
        exact hrec

theorem writeLevels_isSome :
    ∀ {mods out : List Mod} {G : DiGraph}, writeLevels G mods = some out →
      ∀ m ∈ mods, (getAssoc G.levels m.name).isSome := by
  intro mods
  induction mods with
  | nil => intro out G _ m hm; simp at hm
  | cons m₁ rest ih =>
    intro out G h m hm
    rw [writeLevels] at h
    cases hg : getAssoc G.levels m₁.name with
    | none => rw [hg] at h; cases h
    | some l =>
      rw [hg] at h
      cases hw : writeLevels G rest with
      | none => rw [hw] at h; cases h
      | some rest' =>
        rcases List.mem_cons.mp hm with he | ht
        · subst he
          rw [hg]
          rfl
        · exact ih hw m ht

theorem writeLevels_map_name_level :
    ∀ {mods₁ : List Mod} {mods₂ out₁ out₂ : List Mod} {g₁ g₂ : DiGraph},
      writeLevels g₁ mods₁ = some out₁ → writeLevels g₂ mods₂ = some out₂ →
      mods₁.map Mod.name = mods₂.map Mod.name →
      (∀ v, getAssoc g₁.levels v = getAssoc g₂.levels v) →
      out₁.map (fun m => (m.name, m.level)) =
        out₂.map (fun m => (m.name, m.level)) := by
  intro mods₁
  induction mods₁ with
  | nil =>
    intro mods₂ out₁ out₂ g₁ g₂ h₁ h₂ hn _
    cases mods₂ with
    | nil =>
      simp only [writeLevels, Option.some.injEq] at h₁ h₂
      subst h₁
      subst h₂
      rfl
    | cons m₂ r₂ => simp at hn
  | cons m₁ r₁ ih =>
    intro mods₂ out₁ out₂ g₁ g₂ h₁ h₂ hn hg
    cases mods₂ with
    | nil => simp at hn
    | cons m₂ r₂ =>
      simp only [List.map_cons, List.cons.injEq] at hn
      rw [writeLevels] at h₁ h₂
      cases hg₁ : getAssoc g₁.levels m₁.name with
      | none => rw [hg₁] at h₁; cases h₁
      | some l₁ =>
        rw [hg₁] at h₁
        cases hw₁ : writeLevels g₁ r₁ with
        | none => rw [hw₁] at h₁; cases h₁
        | some rest₁ =>
          rw [hw₁] at h₁
          simp only [Option.some.injEq] at h₁
          subst h₁
          cases hg₂ : getAssoc g₂.levels m₂.name with
          | none => rw [hg₂] at h₂; cases h₂
          | some l₂ =>
            rw [hg₂] at h₂
            cases hw₂ : writeLevels g₂ r₂ with
            | none => rw [hw₂] at h₂; cases h₂
            | some rest₂ =>
              rw [hw₂] at h₂
              simp only [Option.some.injEq] at h₂
              subst h₂
              have hl : l₁ = l₂ := by
                have := hg m₁.name
                rw [hg₁, hn.1, hg₂] at this
                simpa using this
              simp only [List.map_cons, List.cons.injEq]
              exact ⟨by rw [hn.1, hl], ih hw₁ hw₂ hn.2 hg⟩

/-- C10: the pruner never mutates the dependency graph (the graph it
returns is exactly its input), and consequently the level assignment is
computed over the full, unpruned edge set: `calculateLevels` produces
exactly the same per-module levels as the pruning-free variant
`calculateLevelsNoPrune`. -/
theorem c10_pruner_never_mutates_graph :
    (∀ (G G' : DiGraph) (s d : String) (succs : List String)
      (mods mods' : List Mod),
      removeModulesInIntermediatePaths G s d succs mods = some (G', mods') →
      G' = G) ∧
    (∀ (nl : List String) (mods out : List Mod),
      calculateLevels nl mods = some out →
      ∃ out', calculateLevelsNoPrune nl mods = some out' ∧
        out.map (fun m => (m.name, m.level)) =
          out'.map (fun m => (m.name, m.level))) := by
  constructor
  · intro G G' s d succs mods mods' h
    exact removeModules_graph_frame h
  · intro nl mods out hout
    rw [calculateLevels] at hout
    cases hrw : runWaves ((buildGraph nl mods).nodes.length + 1)
        (rootsOf (buildGraph nl mods)) 2 (buildGraph nl mods) mods with
    | none => rw [hrw] at hout; cases hout
    | some r =>
      obtain ⟨G', mods'⟩ := r
      rw [hrw] at hout
      simp only at hout
      rcases runWaves_spec _ _ _ _ _ _ _ hrw with ⟨hadj, hshr, hlev⟩
      have hempty := runWaves_frontier_empty _ _ _ _ _ _ _ hrw
      rcases runWavesNP_total ((buildGraph nl mods).nodes.length + 1)
        (rootsOf (buildGraph nl mods)) 2 (buildGraph nl mods) hempty with
        ⟨G'', hrwNP⟩
      rcases runWavesNP_spec _ _ _ _ _ hrwNP with ⟨hadjNP, hlevNP⟩
      have hsame : ∀ v, getAssoc G'.levels v = getAssoc G''.levels v := by
        intro v
        cases hcase : lastHit (buildGraph nl mods)
            ((buildGraph nl mods).nodes.length + 1)
            (rootsOf (buildGraph nl mods)) v with
        | some j => rw [(hlev v).1 j hcase, (hlevNP v).1 j hcase]
        | none => rw [(hlev v).2 hcase, (hlevNP v).2 hcase]
      have hnames : mods'.map Mod.name = mods.map Mod.name :=
        shrinks_names hshr
      rcases writeLevels_total mods G'' (by
          intro m hm
          have hmem : m.name ∈ mods.map Mod.name :=
            List.mem_map.mpr ⟨m, hm, rfl⟩
          rw [← hnames] at hmem
          rcases List.mem_map.mp hmem with ⟨m', hm', he⟩
          have := writeLevels_isSome hout m' hm'
          rw [hsame m'.name] at this
          rw [← he]
          exact this) with ⟨out', hwlNP⟩
      refine ⟨out', ?_, ?_⟩
      · show (match runWavesNP ((buildGraph nl mods).nodes.length + 1)
            (rootsOf (buildGraph nl mods)) 2 (buildGraph nl mods) with
          | none => none
          | some G' => writeLevels G' mods) = some out'
        rw [hrwNP]
        exact hwlNP
      · exact writeLevels_map_name_level hout hwlNP hnames hsame

/-- Witness for C10: on a two-module example the pruning-free variant
produces the same levels as `calculateLevels`. -/
theorem c10_witness :
    ∃ out', calculateLevelsNoPrune ["A", "B"]
      [⟨"A", "", 0, true, ["B"]⟩, ⟨"B", "", 0, true, []⟩] = some out' ∧
      ([⟨"A", "", 1, true, ["B"]⟩, ⟨"B", "", 2, true, []⟩] :
        List Mod).map (fun m => (m.name, m.level)) =
        out'.map (fun m => (m.name, m.level)) :=
  c10_pruner_never_mutates_graph.2 ["A", "B"]
    [⟨"A", "", 0, true, ["B"]⟩, ⟨"B", "", 0, true, []⟩]
    [⟨"A", "", 1, true, ["B"]⟩, ⟨"B", "", 2, true, []⟩] (by decide)

/-! ### What the whole run prunes: characterization of the output
`dependents` -/

theorem removeModules_eq_self_of_not_alt {G G' : DiGraph} {s d : String}
    {succs : List String} {mods mods' : List Mod}
    (h : removeModulesInIntermediatePaths G s d succs mods = some (G', mods'))
    (halt : hasAltPath G s d = false) : mods' = mods := by
  unfold removeModulesInIntermediatePaths at h
  cases hp : pyMax (all_simple_paths G s d) with
  | none => rw [hp] at h; cases h
  | some p =>
    rw [hp] at h
    simp only [Option.some.injEq, Prod.mk.injEq] at h
    have hlt : p.length < 3 := by
      by_contra hge
      have htrue : hasAltPath G s d = true :=
        List.any_eq_true.mpr ⟨p, pyMax_mem hp,
          decide_eq_true (Nat.le_of_not_lt hge)⟩
      rw [htrue] at halt
      simp at halt
    have hint : (p.drop 1).dropLast = [] := by
      match p, hlt with
      | [], _ => rfl
      | [a], _ => rfl
      | [a, b], _ => rfl
    rw [hint] at h
    exact h.2.symm

theorem hasAltPath_congr {g₁ g₂ : DiGraph} (h : g₁.adj = g₂.adj)
    (s d : String) : hasAltPath g₁ s d = hasAltPath g₂ s d := by
  unfold hasAltPath
  rw [all_simple_paths_congr h]

theorem processSuccessors_preserves {node : String} {succs : List String}
    {lvl : Nat} :
    ∀ {rest temp : List String} {G : DiGraph} {mods : List Mod}
      {t : List String} {G' : DiGraph} {mods' : List Mod} {u v : String},
      processSuccessors node succs lvl rest temp G mods =
        some (t, G', mods') →
      hasAltPath G u v = false → v ∈ depsOf mods u →
      v ∈ depsOf mods' u := by
  intro rest
  induction rest with
  | nil =>
    intro temp G mods t G' mods' u v h _ hv
    rw [processSuccessors] at h
    simp only [Option.some.injEq, Prod.mk.injEq] at h
    rw [← h.2.2]
    exact hv
  | cons s srest ih =>
    intro temp G mods t G' mods' u v h halt hv
    rw [processSuccessors] at h
    cases hrm : removeModulesInIntermediatePaths G node s succs mods with
    | none => rw [hrm] at h; cases h
    | some r =>
      obtain ⟨G₁, mods₁⟩ := r
      rw [hrm] at h
      simp only at h
      have hG₁ : G = G₁ := (removeModules_graph_frame hrm).symm
      subst hG₁
      have hv₁ : v ∈ depsOf mods₁ u := by
        by_cases hpair : u = node ∧ v = s
        · obtain ⟨h1, h2⟩ := hpair
          subst h1
          subst h2
          rw [removeModules_eq_self_of_not_alt hrm halt]
          exact hv
        · exact removeModules_mem_preserved hrm hv hpair
      exact ih h (by rwa [@hasAltPath_congr
        ⟨G.adj, setAssoc G.levels s lvl⟩ G rfl u v]) hv₁

theorem processNodes_preserves {lvl : Nat} :
    ∀ {pl temp : List String} {G : DiGraph} {mods : List Mod}
      {t : List String} {G' : DiGraph} {mods' : List Mod} {u v : String},
      processNodes lvl pl temp G mods = some (t, G', mods') →
      hasAltPath G u v = false → v ∈ depsOf mods u →
      v ∈ depsOf mods' u := by
  intro pl
  induction pl with
  | nil =>
    intro temp G mods t G' mods' u v h _ hv
    rw [processNodes] at h
    simp only [Option.some.injEq, Prod.mk.injEq] at h
    rw [← h.2.2]
    exact hv
  | cons node rest ih =>
    intro temp G mods t G' mods' u v h halt hv
    rw [processNodes] at h
    cases hps : processSuccessors node (successors G node) lvl
        (successors G node) temp G mods with
    | none => rw [hps] at h; cases h
    | some r =>
      obtain ⟨t₁, G₁, mods₁⟩ := r
      rw [hps] at h
      simp only at h
      rcases processSuccessors_spec node (successors G node) lvl
        (successors G node) temp G mods t₁ G₁ mods₁ hps with
        ⟨_, hadj₁, _, _⟩
      have hv₁ : v ∈ depsOf mods₁ u :=
        processSuccessors_preserves hps halt hv
      exact ih h (by rwa [hasAltPath_congr hadj₁ u v]) hv₁

theorem runWaves_preserves :
    ∀ (fuel : Nat) {pl : List String} {lvl : Nat} {G : DiGraph}
      {mods : List Mod} {G' : DiGraph} {mods' : List Mod} {u v : String},
      runWaves fuel pl lvl G mods = some (G', mods') →
      hasAltPath G u v = false → v ∈ depsOf mods u →
      v ∈ depsOf mods' u := by
  intro fuel
  induction fuel with
  | zero =>
    intro pl lvl G mods G' mods' u v h _ hv
    cases pl with
    | nil =>
      rw [runWaves] at h
      simp only [Option.some.injEq, Prod.mk.injEq] at h
      rw [← h.2]
      exact hv
    | cons p t => rw [runWaves] at h; cases h
  | succ fuel ih =>
    intro pl lvl G mods G' mods' u v h halt hv
    cases pl with
    | nil =>
      rw [runWaves] at h
      simp only [Option.some.injEq, Prod.mk.injEq] at h
      rw [← h.2]
      exact hv
    | cons p t =>
      simp only [runWaves] at h
      cases hpn : processNodes lvl (p :: t) [] G mods with
      | none => rw [hpn] at h; cases h
      | some r =>
        obtain ⟨temp, G₁, mods₁⟩ := r
        rw [hpn] at h
        simp only at h
        rcases processNodes_spec lvl (p :: t) [] G mods temp G₁ mods₁ hpn with
          ⟨_, hadj₁, _, _⟩
        have hv₁ : v ∈ depsOf mods₁ u := processNodes_preserves hpn halt hv
        exact ih h (by rwa [hasAltPath_congr hadj₁ u v]) hv₁

theorem not_mem_depsOf_of_shrinks {mods' mods : List Mod}
    (h : List.Forall₂ Shrinks mods' mods) {u v : String}
    (hv : v ∉ depsOf mods u) : v ∉ depsOf mods' u :=
  fun hm => hv ((depsOf_of_shrinks h u).subset hm)

theorem nodup_depsOf_of_shrinks {mods' mods : List Mod}
    (h : List.Forall₂ Shrinks mods' mods)
    (hnd : ∀ w, (depsOf mods w).Nodup) :
    ∀ w, (depsOf mods' w).Nodup :=
  fun w => (hnd w).sublist (depsOf_of_shrinks h w)

theorem processSuccessors_removes {node : String} {lvl : Nat} :
    ∀ {rest temp : List String} {G : DiGraph} {mods : List Mod}
      {t : List String} {G' : DiGraph} {mods' : List Mod} {v : String},
      processSuccessors node (successors G node) lvl rest temp G mods =
        some (t, G', mods') →
      v ∈ rest → hasAltPath G node v = true →
      (depsOf mods node).Nodup →
      v ∉ depsOf mods' node := by
  intro rest
  induction rest with
  | nil =>
    intro temp G mods t G' mods' v _ hv _ _
    simp at hv
  | cons s srest ih =>
    intro temp G mods t G' mods' v h hv halt hnd
    rw [processSuccessors] at h
    rcases List.mem_cons.mp hv with he | ht
    · subst he
      rw [removeModules_of_hasAltPath hnd halt] at h
      simp only at h
      rcases processSuccessors_spec node (successors G node) lvl srest
        (pushNew temp v) ⟨G.adj, setAssoc G.levels v lvl⟩
        (removeDependent mods node v) t G' mods' h with ⟨_, _, _, hshr⟩
      exact not_mem_depsOf_of_shrinks hshr
        (not_mem_depsOf_removeDependent hnd)
    · cases hrm : removeModulesInIntermediatePaths G node s
          (successors G node) mods with
      | none => rw [hrm] at h; cases h
      | some r =>
        obtain ⟨G₁, mods₁⟩ := r
        rw [hrm] at h
        simp only at h
        have hG₁ : G = G₁ := (removeModules_graph_frame hrm).symm
        subst hG₁
        have hshr₁ := removeModules_shrinks hrm
        have hnd₁ : (depsOf mods₁ node).Nodup :=
          (hnd).sublist (depsOf_of_shrinks hshr₁ node)
        exact ih h ht (by rwa [@hasAltPath_congr
          ⟨G.adj, setAssoc G.levels s lvl⟩ G rfl node v]) hnd₁

theorem processNodes_removes {lvl : Nat} :
    ∀ {pl temp : List String} {G : DiGraph} {mods : List Mod}
      {t : List String} {G' : DiGraph} {mods' : List Mod} {u v : String},
      processNodes lvl pl temp G mods = some (t, G', mods') →
      u ∈ pl → v ∈ successors G u → hasAltPath G u v = true →
      (∀ w, (depsOf mods w).Nodup) →
      v ∉ depsOf mods' u := by
  intro pl
  induction pl with
  | nil =>
    intro temp G mods t G' mods' u v _ hu _ _ _
    simp at hu
  | cons node rest ih =>
    intro temp G mods t G' mods' u v h hu hv halt hnds
    rw [processNodes] at h
    cases hps : processSuccessors node (successors G node) lvl
        (successors G node) temp G mods with
    | none => rw [hps] at h; cases h
    | some r =>
      obtain ⟨t₁, G₁, mods₁⟩ := r
      rw [hps] at h
      simp only at h
      rcases processSuccessors_spec node (successors G node) lvl
        (successors G node) temp G mods t₁ G₁ mods₁ hps with
        ⟨_, hadj₁, _, hshr₁⟩
      rcases List.mem_cons.mp hu with he | hurest
      · subst he
        have habs : v ∉ depsOf mods₁ u :=
          processSuccessors_removes hps hv halt (hnds u)
        rcases processNodes_spec lvl rest t₁ G₁ mods₁ t G' mods' h with
          ⟨_, _, _, hshr⟩
        exact not_mem_depsOf_of_shrinks hshr habs
      · refine ih h hurest ?_ ?_ (nodup_depsOf_of_shrinks hshr₁ hnds)
        · rwa [successors_congr hadj₁]
        · rwa [hasAltPath_congr hadj₁]

theorem runWaves_removes :
    ∀ (fuel : Nat) {pl : List String} {lvl : Nat} {G : DiGraph}
      {mods : List Mod} {G' : DiGraph} {mods' : List Mod} {u v : String}
      (k : Nat),
      runWaves fuel pl lvl G mods = some (G', mods') →
      u ∈ frontierSeq G pl k → v ∈ successors G u →
      hasAltPath G u v = true → (∀ w, (depsOf mods w).Nodup) →
      v ∉ depsOf mods' u := by
  intro fuel
  induction fuel with
  | zero =>
    intro pl lvl G mods G' mods' u v k h hu _ _ _
    cases pl with
    | nil =>
      rw [frontierSeq_nil] at hu
      simp at hu
    | cons p t => rw [runWaves] at h; cases h
  | succ fuel ih =>
    intro pl lvl G mods G' mods' u v k h hu hv halt hnds
    cases pl with
    | nil =>
      rw [frontierSeq_nil] at hu
      simp at hu
    | cons p t =>
      simp only [runWaves] at h
      cases hpn : processNodes lvl (p :: t) [] G mods with
      | none => rw [hpn] at h; cases h
      | some r =>
        obtain ⟨temp, G₁, mods₁⟩ := r
        rw [hpn] at h
        simp only at h
        rcases processNodes_spec lvl (p :: t) [] G mods temp G₁ mods₁ hpn with
          ⟨htemp, hadj₁, _, hshr₁⟩
        rcases k with _ | k
        · have habs : v ∉ depsOf mods₁ u :=
            processNodes_removes hpn hu hv halt hnds
          rcases runWaves_spec _ _ _ _ _ _ _ h with ⟨_, hshr, _⟩
          exact not_mem_depsOf_of_shrinks hshr habs
        · have htempNF : temp = nextFrontier G (p :: t) := htemp
          have hu' : u ∈ frontierSeq G₁ temp k := by
            rw [frontierSeq_congr hadj₁, htempNF, frontierSeq_shift]
            exact hu
          refine ih k h hu' ?_ ?_ (nodup_depsOf_of_shrinks hshr₁ hnds)
          · rwa [successors_congr hadj₁]
          · rwa [hasAltPath_congr hadj₁]

theorem calculateLevels_depsOf_char {nl : List String} {mods out : List Mod}
    {ord : String → Nat}
    (ht : TopoOrd (buildGraph nl mods) ord)
    (hnmnd : (mods.map Mod.name).Nodup)
    (hnds : ∀ w, (depsOf mods w).Nodup)
    (hout : calculateLevels nl mods = some out) (u v : String) :
    v ∈ depsOf out u ↔
      v ∈ depsOf mods u ∧
        hasAltPath (buildGraph nl mods) u v = false := by
  have hWf := buildGraph_wf nl mods
  rw [calculateLevels] at hout
  cases hrw : runWaves ((buildGraph nl mods).nodes.length + 1)
      (rootsOf (buildGraph nl mods)) 2 (buildGraph nl mods) mods with
  | none => rw [hrw] at hout; cases hout
  | some r =>
    obtain ⟨G', mods'⟩ := r
    rw [hrw] at hout
    simp only at hout
    rcases runWaves_spec _ _ _ _ _ _ _ hrw with ⟨hadj, hshr, _⟩
    rw [writeLevels_depsOf hout u]
    constructor
    · intro hv'
      have hv : v ∈ depsOf mods u := (depsOf_of_shrinks hshr u).subset hv'
      refine ⟨hv, ?_⟩
      by_contra haltne
      have halt : hasAltPath (buildGraph nl mods) u v = true := by
        cases hcase : hasAltPath (buildGraph nl mods) u v
        · exact absurd hcase haltne
        · rfl
      have hsucc : v ∈ successors (buildGraph nl mods) u :=
        (mem_successors_buildGraph_depsOf hnmnd u v).mpr hv
      have hufr : ∃ k, u ∈ frontierSeq (buildGraph nl mods)
          (rootsOf (buildGraph nl mods)) k := by
        by_cases hdeg : in_degree (buildGraph nl mods) u = 0
        · refine ⟨0, ?_⟩
          show u ∈ rootsOf (buildGraph nl mods)
          refine mem_rootsOf_iff.mpr
            ⟨mem_nodes_of_successors_ne hsucc, hdeg, ?_⟩
          intro h0
          have hlen : (successors (buildGraph nl mods) u).length = 0 := h0
          rw [List.length_eq_zero.mp hlen] at hsucc
          simp at hsucc
        · rcases exists_max_reach hWf ht u with ⟨L, hL, _⟩
          have hL0 : L ≠ 0 := by
            intro h0
            subst h0
            exact hdeg (reachS_zero_iff.mp hL)
          exact ⟨L, frontier_roots_of_reachS hL0 hL⟩
      rcases hufr with ⟨k, hk⟩
      exact runWaves_removes _ k hrw hk hsucc halt hnds hv'
    · rintro ⟨hv, halt⟩
      exact runWaves_preserves _ hrw halt hv

theorem hasAltPath_true_iff {G : DiGraph} {ord : String → Nat}
    (hWf : WfG G) (ht : TopoOrd G ord) {s d : String} :
    hasAltPath G s d = true ↔ ∃ k, 2 ≤ k ∧ Steps G s d k := by
  constructor
  · intro h
    rcases List.any_eq_true.mp h with ⟨p, hp, hlen⟩
    have hlen' : 3 ≤ p.length := of_decide_eq_true hlen
    rcases all_simple_paths_sound hp with ⟨hc, hh, hl, _⟩
    exact ⟨p.length - 1, by omega, chain_to_steps hc hh hl⟩
  · rintro ⟨k, hk2, hs⟩
    rcases steps_to_chain hs with ⟨l, hc, hh, hl, hlen⟩
    have hnd := chain_nodup_of_topo ht hc
    have hsn : s ∈ G.nodes := by
      rcases k with _ | k
      · omega
      · rcases steps_first_edge hs with ⟨w, hw, _⟩
        exact mem_nodes_of_successors_ne hw
    exact List.any_eq_true.mpr
      ⟨l, all_simple_paths_complete hWf hsn hh hl hc hnd,
        decide_eq_true (by omega)⟩

theorem steps_sub {g₁ g₂ : DiGraph}
    (hsub : ∀ a b, b ∈ successors g₁ a → b ∈ successors g₂ a)
    {r v : String} {k : Nat} (h : Steps g₁ r v k) : Steps g₂ r v k := by
  induction h with
  | refl => exact Steps.refl _
  | snoc hs hedge ih => exact Steps.snoc ih (hsub _ _ hedge)

theorem in_degree_zero_transfer {g₁ g₂ : DiGraph} (hWf₂ : WfG g₂)
    (hsub : ∀ a b, b ∈ successors g₂ a → b ∈ successors g₁ a)
    {r : String} (h : in_degree g₁ r = 0) : in_degree g₂ r = 0 := by
  by_contra hne
  rcases exists_in_edge hWf₂ hne with ⟨u, hu⟩
  exact in_degree_pos (hsub u r hu) h

theorem steps_survive {g₁ g₂ : DiGraph} {ord : String → Nat}
    (hWf₁ : WfG g₁) (ht₁ : TopoOrd g₁ ord)
    (hedge : ∀ a b, b ∈ successors g₁ a → hasAltPath g₁ a b = false →
      b ∈ successors g₂ a) :
    ∀ {r v : String} {L : Nat}, Steps g₁ r v L →
      (∀ k, ReachS g₁ v k → k ≤ L) → in_degree g₁ r = 0 →
      Steps g₂ r v L := by
  intro r v L hs
  induction hs with
  | refl => intro _ _; exact Steps.refl r
  | @snoc b c k hs₀ hedge₀ ih =>
    intro hmax hdeg
    have hmaxb : ∀ m, ReachS g₁ b m → m ≤ k := by
      rintro m ⟨q, hq, hsq⟩
      have := hmax (m + 1) ⟨q, hq, Steps.snoc hsq hedge₀⟩
      omega
    have hstep := ih hmaxb hdeg
    have hfalse : hasAltPath g₁ b c = false := by
      cases hcase : hasAltPath g₁ b c
      · rfl
      · exfalso
        rcases (hasAltPath_true_iff hWf₁ ht₁).mp hcase with ⟨m, hm2, hms⟩
        have := hmax (k + m) ⟨r, hdeg, steps_trans hs₀ hms⟩
        omega
    exact Steps.snoc hstep (hedge b c hedge₀ hfalse)

theorem calculateLevels_map_name {nl : List String} {mods out : List Mod}
    (hout : calculateLevels nl mods = some out) :
    out.map Mod.name = mods.map Mod.name := by
  rw [calculateLevels] at hout
  cases hrw : runWaves ((buildGraph nl mods).nodes.length + 1)
      (rootsOf (buildGraph nl mods)) 2 (buildGraph nl mods) mods with
  | none => rw [hrw] at hout; cases hout
  | some r =>
    obtain ⟨G', mods'⟩ := r
    rw [hrw] at hout
    simp only at hout
    rcases runWaves_spec _ _ _ _ _ _ _ hrw with ⟨_, hshr, _⟩
    exact (writeLevels_names hout).1.trans (shrinks_names hshr)

theorem depsOf_nodup_of_forall {mods : List Mod}
    (h : ∀ m ∈ mods, m.dependents.Nodup) (w : String) :
    (depsOf mods w).Nodup := by
  unfold depsOf
  cases hf : mods.find? (fun m => decide (m.name = w)) with
  | none => simp
  | some m => simpa using h m (List.mem_of_find?_eq_some hf)

/-- C7: on an acyclic input whose records are named by the module list
and whose dependents lists are duplicate-free, feeding the pruned output
records back in as the new input — so the graph edges of the second run
come from the already-pruned `dependents` lists — succeeds and assigns
every listed module the same level as the first run. -/
theorem c7_roundtrip_levels_stable {nl : List String} {mods out : List Mod}
    {ord : String → Nat}
    (ht : TopoOrd (buildGraph nl mods) ord)
    (hnl : mods.map Mod.name = nl) (hnd : nl.Nodup)
    (hnds : ∀ w, (depsOf mods w).Nodup)
    (hout : calculateLevels nl mods = some out) :
    ∃ outR, calculateLevels nl out = some outR ∧
      ∀ v ∈ nl, levelOf outR v = levelOf out v := by
  have hWf := buildGraph_wf nl mods
  have hWfR := buildGraph_wf nl out
  have hmodnd : (mods.map Mod.name).Nodup := by rw [hnl]; exact hnd
  have honames : out.map Mod.name = nl :=
    (calculateLevels_map_name hout).trans hnl
  have houtnd : (out.map Mod.name).Nodup := by rw [honames]; exact hnd
  have hchar := calculateLevels_depsOf_char ht hmodnd hnds hout
  have hsub21 : ∀ a b, b ∈ successors (buildGraph nl out) a →
      b ∈ successors (buildGraph nl mods) a := by
    intro a b hb
    have hdep : b ∈ depsOf out a :=
      (mem_successors_buildGraph_depsOf houtnd a b).mp hb
    exact (mem_successors_buildGraph_depsOf hmodnd a b).mpr
      ((hchar a b).mp hdep).1
  have hedgecond : ∀ a b, b ∈ successors (buildGraph nl mods) a →
      hasAltPath (buildGraph nl mods) a b = false →
      b ∈ successors (buildGraph nl out) a := by
    intro a b hb hfalse
    have hdep : b ∈ depsOf mods a :=
      (mem_successors_buildGraph_depsOf hmodnd a b).mp hb
    exact (mem_successors_buildGraph_depsOf houtnd a b).mpr
      ((hchar a b).mpr ⟨hdep, hfalse⟩)
  have htR : TopoOrd (buildGraph nl out) ord := by
    intro p hp v hv
    have hpmem : (p.1, p.2) ∈ (buildGraph nl out).adj := by simpa using hp
    have hg : getAssoc (buildGraph nl out).adj p.1 = some p.2 :=
      getAssoc_of_mem_nodup hWfR.1 hpmem
    have hvs : v ∈ successors (buildGraph nl out) p.1 := by
      unfold successors
      rw [hg]
      exact hv
    exact edge_ord ht (hsub21 p.1 v hvs)
  rcases calculateLevels_total htR (by
      intro m hm
      rw [← honames]
      exact List.mem_map.mpr ⟨m, hm, rfl⟩) with ⟨outR, houtR⟩
  refine ⟨outR, houtR, ?_⟩
  intro v hv
  have hvmods : ∃ m ∈ mods, m.name = v := by
    have hv' : v ∈ mods.map Mod.name := by rw [hnl]; exact hv
    rcases List.mem_map.mp hv' with ⟨m, hm, he⟩
    exact ⟨m, hm, he⟩
  have hvout : ∃ m ∈ out, m.name = v := by
    have hv' : v ∈ out.map Mod.name := by rw [honames]; exact hv
    rcases List.mem_map.mp hv' with ⟨m, hm, he⟩
    exact ⟨m, hm, he⟩
  rcases exists_max_reach hWf ht v with ⟨L, hL, hmax⟩
  have hlev1 : levelOf out v = some (L + 1) :=
    calculateLevels_levelOf_char ht hout hvmods hv L hL hmax
  rcases hL with ⟨r, hr, hs⟩
  have hsR : Steps (buildGraph nl out) r v L :=
    steps_survive hWf ht hedgecond hs hmax hr
  have hrR : in_degree (buildGraph nl out) r = 0 :=
    in_degree_zero_transfer hWfR hsub21 hr
  have hmaxR : ∀ k, ReachS (buildGraph nl out) v k → k ≤ L := by
    rintro k ⟨q, hq, hsq⟩
    have hsq1 : Steps (buildGraph nl mods) q v k := steps_sub hsub21 hsq
    have hq1 : in_degree (buildGraph nl mods) q = 0 := by
      by_contra hne
      rcases exists_max_reach hWf ht q with ⟨Lq, hLq, hmaxq⟩
      have hLq0 : Lq ≠ 0 := fun h0 => hne (reachS_zero_iff.mp (h0 ▸ hLq))
      rcases hLq with ⟨p, hp, hsp⟩
      have hspR : Steps (buildGraph nl out) p q Lq :=
        steps_survive hWf ht hedgecond hsp hmaxq hp
      exact steps_pos_in_degree hspR hLq0 hq
    exact hmax k ⟨q, hq1, hsq1⟩
  have hlev2 : levelOf outR v = some (L + 1) :=
    calculateLevels_levelOf_char htR houtR hvout hv L ⟨r, hrR, hsR⟩ hmaxR
  rw [hlev1, hlev2]

/-- Witness for C7: the pruned three-module output fed back in yields the
same levels as the first run. -/
theorem c7_witness :
    ∃ outR, calculateLevels ["A", "B", "C"]
        [⟨"A", "", 1, true, ["B"]⟩, ⟨"B", "", 2, true, ["C"]⟩,
          ⟨"C", "", 3, true, []⟩] = some outR ∧
      ∀ v ∈ ["A", "B", "C"], levelOf outR v =
        levelOf [⟨"A", "", 1, true, ["B"]⟩, ⟨"B", "", 2, true, ["C"]⟩,
          ⟨"C", "", 3, true, []⟩] v :=
  @c7_roundtrip_levels_stable ["A", "B", "C"]
    [⟨"A", "", 0, true, ["B", "C"]⟩, ⟨"B", "", 0, true, ["C"]⟩,
      ⟨"C", "", 0, true, []⟩]
    [⟨"A", "", 1, true, ["B"]⟩, ⟨"B", "", 2, true, ["C"]⟩,
      ⟨"C", "", 3, true, []⟩]
    (fun n => if n = "A" then 0 else if n = "B" then 1 else 2)
    (by decide) (by decide) (by decide)
    (fun w => depsOf_nodup_of_forall (by decide) w)
    (by decide)

end ModDeps
